import Mathlib

/-!
Verification of the posixCppFdFileLibrary flat-file record store.

The definitions below are a shallow embedding of the library's C++ sources:

* `FieldMeta.hpp` — the fixed-width binary field codec (`FieldMeta::get` /
  `FieldMeta::set`), including the `std::stoull`-based numeric decoding;
* `textFormatUtil.hpp` — the text line codec (`parseLine` / `formatLine`
  and their lexical helpers);
* `FdTextFile.cpp` — the text reader's comment stripping and blank-line
  skipping (`stripCommentOutsideQuotes`, `isBlankAfterTrimLeft`,
  `readNextRecordLine`);
* `VariableFileRepositoryImpl.cpp` — the line-rewrite store (cache rebuild
  `loadAllToCache`, `save`, `deleteById`, `count`, ...);
* `UniformFixedRepositoryImpl.hpp` — the fixed-slot store (slot arithmetic,
  staleness checks, cache rebuild, delete compaction);
* `FileLockGuard.hpp` — whole-file advisory locking, modelled as event
  traces of the public operations.

Machine integers are modelled as `Nat`/`Int` with explicit wrapping at
`2 ^ 64`; fallible operations return `Except`/`Option`.
-/

namespace FdFileV

/-! ### Character classification (C `<cctype>` on ASCII input) -/

/-- C `isdigit` for the byte values the library feeds it. -/
def isDigitC (c : Char) : Bool := 48 ≤ c.toNat && c.toNat ≤ 57

/-- C `isalpha` (ASCII letters). -/
def isAlphaC (c : Char) : Bool :=
  (65 ≤ c.toNat && c.toNat ≤ 90) || (97 ≤ c.toNat && c.toNat ≤ 122)

/-- C `isalnum` (ASCII letters and digits). -/
def isAlnumC (c : Char) : Bool := isAlphaC c || isDigitC c

/-- C `isspace`: space, \t, \n, \v, \f, \r. -/
def isSpaceC (c : Char) : Bool := c.toNat == 32 || (9 ≤ c.toNat && c.toNat ≤ 13)

/-! ### Decimal digit strings -/

/-- Value of a decimal digit string, accumulated left to right the way
`strtoull` does. -/
def digitsToNat (l : List Char) : Nat :=
  l.foldl (fun a c => a * 10 + (c.toNat - 48)) 0

/-- Character for the least significant digit of `n`. -/
def natDigit (n : Nat) : Char := Char.ofNat (48 + n % 10)

/-- The `k` least significant decimal digits of `n`, zero padded, most
significant first.  `padDigits 19 n` is what `snprintf "%019llu"` prints for
`n < 10 ^ 19`. -/
def padDigits : Nat → Nat → List Char
  | 0, _ => []
  | k + 1, n => padDigits k (n / 10) ++ [natDigit n]

/-! ### FieldMeta numeric codec (`FieldMeta.hpp`)

`FieldMeta::get` for a numeric field writes a sign character followed by 19
zero-padded decimal digits; the magnitude of a negative value is computed
through `uint64_t` so that `INT64_MIN` does not overflow during negation.

`FieldMeta::set` validates the sign byte, then calls `std::stoull` on the
remaining bytes and negates the result for a `-` sign.  The `int64_t` casts
and the negation wrap modulo `2 ^ 64` (two's complement). -/

/-- Errors of the fixed codec.  In the C++ source `malformedField` and
`invalidDigits` surface as thrown exceptions (invalid sign byte resp.
`std::invalid_argument` out of `std::stoull`); `outOfRange` is
`std::out_of_range` out of `std::stoull`. -/
inductive NumErr where
  | malformedField
  | invalidDigits
  | outOfRange
deriving DecidableEq, Repr

/-- Two's-complement wrap of an integer into `[-2 ^ 63, 2 ^ 63)`. -/
def wrap64 (x : Int) : Int := (x + 2 ^ 63) % 2 ^ 64 - 2 ^ 63

def INT64_MIN : Int := -(2 ^ 63)

def INT64_MAX : Int := 2 ^ 63 - 1

/-- `FieldMeta::get` for a numeric field: sign plus 19 zero-padded digits.
The magnitude of a negative value is `(uint64_t)(-(val + 1)) + 1`. -/
def fieldMetaGetNum (val : Int) : List Char :=
  let sign := if 0 ≤ val then '+' else '-'
  let absVal : Nat := if 0 ≤ val then val.toNat else (-(val + 1)).toNat + 1
  sign :: padDigits 19 absVal

/-- The sign seen by `strtoull`: the first character after leading
whitespace, if it is `-`. -/
def stoullNeg (s : List Char) : Bool :=
  match s.dropWhile isSpaceC with
  | c :: _ => c = '-'
  | [] => false

/-- The digit run consumed by `strtoull`: after leading whitespace and an
optional sign, the maximal prefix of decimal digits.  Everything after it is
ignored. -/
def stoullDigitRun (s : List Char) : List Char :=
  match s.dropWhile isSpaceC with
  | [] => []
  | c :: r =>
    if c = '-' ∨ c = '+' then r.takeWhile isDigitC
    else (c :: r).takeWhile isDigitC

/-- `std::stoull` (base 10) on a byte string: skip leading whitespace, accept
one optional sign, then a nonempty digit run; trailing bytes are ignored.
A `-` sign negates the value modulo `2 ^ 64`; a digit run whose value
exceeds `2 ^ 64 - 1` is out of range. -/
def stoullModel (s : List Char) : Except NumErr Nat :=
  let ds := stoullDigitRun s
  if ds.isEmpty then .error .invalidDigits
  else
    let v := digitsToNat ds
    if 2 ^ 64 - 1 < v then .error .outOfRange
    else .ok (if stoullNeg s then (2 ^ 64 - v % 2 ^ 64) % 2 ^ 64 else v)

/-- `FieldMeta::set` for a numeric field: the first byte must be `+` or `-`,
the magnitude is parsed by `std::stoull` from the remaining bytes, and the
stored `int64_t` is obtained by (wrapping) cast and, for `-`, negation. -/
def fieldMetaSetNum (buf : List Char) : Except NumErr Int :=
  match buf with
  | [] => .error .malformedField
  | sign :: tail =>
    if sign ≠ '+' ∧ sign ≠ '-' then .error .malformedField
    else
      match stoullModel tail with
      | .error e => .error e
      | .ok absVal =>
        if sign = '-' then .ok (wrap64 (-(wrap64 absVal)))
        else .ok (wrap64 absVal)

/-- `FieldMeta::get` for a string field of width `len`: `memcpy` of the
stored bytes into the slot. -/
def fieldMetaGetStr (v : List Char) : List Char := v

/-- `FieldMeta::set` for a string field of width `len`: `memset` to zero then
`memcpy` of `len` bytes from the buffer. -/
def fieldMetaSetStr (len : Nat) (buf : List Char) : List Char := buf.take len

/-! ### Arithmetic lemmas for the numeric codec -/

theorem digitsToNat_from (a : Nat) (l : List Char) :
    l.foldl (fun a c => a * 10 + (c.toNat - 48)) a =
      a * 10 ^ l.length + digitsToNat l := by
  induction l generalizing a with
  | nil => simp [digitsToNat]
  | cons c t ih =>
    simp only [List.foldl_cons, List.length_cons, digitsToNat]
    rw [ih (a * 10 + (c.toNat - 48)), ih (0 * 10 + (c.toNat - 48))]
    ring

theorem digitsToNat_append_digit (l : List Char) (c : Char) :
    digitsToNat (l ++ [c]) = digitsToNat l * 10 + (c.toNat - 48) := by
  simp only [digitsToNat, List.foldl_append, List.foldl_cons, List.foldl_nil]

theorem natDigit_toNat (n : Nat) : (natDigit n).toNat = 48 + n % 10 := by
  have h : n % 10 < 10 := Nat.mod_lt _ (by omega)
  unfold natDigit
  set m := n % 10 with hm
  interval_cases m <;> decide

theorem digitsToNat_padDigits (k n : Nat) :
    digitsToNat (padDigits k n) = n % 10 ^ k := by
  induction k generalizing n with
  | zero => simp [padDigits, digitsToNat, Nat.mod_one]
  | succ k ih =>
    rw [padDigits, digitsToNat_append_digit, ih, natDigit_toNat]
    have h1 : 48 + n % 10 - 48 = n % 10 := by omega
    rw [h1]
    have h2 : 10 ^ (k + 1) = 10 * 10 ^ k := by ring
    rw [h2, Nat.mod_mul]
    ring

theorem isDigitC_natDigit (n : Nat) : isDigitC (natDigit n) = true := by
  simp only [isDigitC, natDigit_toNat]
  have := Nat.mod_lt n (y := 10) (by omega)
  simp only [decide_eq_true_eq, Bool.and_eq_true]
  omega

theorem padDigits_all_digit (k n : Nat) :
    ∀ c ∈ padDigits k n, isDigitC c = true := by
  induction k generalizing n with
  | zero => simp [padDigits]
  | succ k ih =>
    intro c hc
    rw [padDigits] at hc
    rcases List.mem_append.mp hc with h | h
    · exact ih _ c h
    · simp only [List.mem_singleton] at h
      subst h; exact isDigitC_natDigit n

theorem padDigits_length (k n : Nat) : (padDigits k n).length = k := by
  induction k generalizing n with
  | zero => simp [padDigits]
  | succ k ih => simp [padDigits, ih]

theorem not_isSpaceC_of_isDigitC {c : Char} (h : isDigitC c = true) :
    isSpaceC c = false := by
  simp only [isDigitC, Bool.and_eq_true, decide_eq_true_eq] at h
  simp only [isSpaceC, Bool.or_eq_false_iff, beq_eq_false_iff_ne, ne_eq,
    Bool.and_eq_false_iff, decide_eq_false_iff_not, not_le]
  omega

theorem digit_ne_sign {c : Char} (h : isDigitC c = true) :
    ¬ (c = '-' ∨ c = '+') := by
  simp only [isDigitC, Bool.and_eq_true, decide_eq_true_eq] at h
  rintro (rfl | rfl) <;> simp_all

theorem digitsToNat_lt (l : List Char) (h : ∀ c ∈ l, isDigitC c = true) :
    digitsToNat l < 10 ^ l.length := by
  induction l using List.reverseRecOn with
  | nil => simp [digitsToNat]
  | append_singleton t c ih =>
    rw [digitsToNat_append_digit]
    have hc : isDigitC c = true := h c (by simp)
    have hc9 : c.toNat - 48 ≤ 9 := by
      simp only [isDigitC, Bool.and_eq_true, decide_eq_true_eq] at hc
      omega
    have ht := ih (fun d hd => h d (by simp [hd]))
    simp only [List.length_append, List.length_singleton]
    have h2 : 10 ^ (t.length + 1) = 10 ^ t.length * 10 := by ring
    rw [h2]
    omega

/-- `stoull` on an all-digit string of length at most 19 returns exactly its
value. -/
theorem stoullModel_digits (ds : List Char) (hne : ds ≠ [])
    (hd : ∀ c ∈ ds, isDigitC c = true) (hlen : ds.length ≤ 19) :
    stoullModel ds = .ok (digitsToNat ds) := by
  obtain ⟨c, t, rfl⟩ := List.exists_cons_of_ne_nil hne
  have hc : isDigitC c = true := hd c (by simp)
  have hdrop : (c :: t).dropWhile isSpaceC = c :: t := by
    rw [List.dropWhile_cons_of_neg]
    simp [not_isSpaceC_of_isDigitC hc]
  have htake : (c :: t).takeWhile isDigitC = c :: t := by
    rw [List.takeWhile_eq_self_iff]
    exact fun a ha => hd a ha
  have hv := digitsToNat_lt (c :: t) hd
  have hbound : digitsToNat (c :: t) < 10 ^ 19 :=
    lt_of_lt_of_le hv (Nat.pow_le_pow_right (by omega) hlen)
  have hrun : stoullDigitRun (c :: t) = c :: t := by
    simp only [stoullDigitRun, hdrop]
    rw [if_neg (digit_ne_sign hc), htake]
  have hneg : stoullNeg (c :: t) = false := by
    simp only [stoullNeg, hdrop]
    simp only [decide_eq_false_iff_not]
    exact fun h => digit_ne_sign hc (Or.inl h)
  simp only [stoullModel, hrun, hneg, List.isEmpty_cons, Bool.false_eq_true, if_false]
  rw [if_neg (by omega)]

theorem wrap64_small {a : Int} (h1 : -(2 ^ 63) ≤ a) (h2 : a < 2 ^ 63) :
    wrap64 a = a := by
  simp only [wrap64]
  omega

/-! ### C10: values above INT64_MAX wrap to negative on decode -/

theorem fieldMetaSetNum_pos_digits (ds : List Char) (hlen : ds.length = 19)
    (hd : ∀ c ∈ ds, isDigitC c = true) :
    fieldMetaSetNum ('+' :: ds) = .ok (wrap64 (digitsToNat ds)) := by
  have hne : ds ≠ [] := by intro h; subst h; simp at hlen
  rw [fieldMetaSetNum]
  rw [if_neg (by simp)]
  rw [stoullModel_digits ds hne hd (by omega)]
  simp

end FdFileV

namespace FdFileV

theorem stoullDigitRun_length_le (s : List Char) :
    (stoullDigitRun s).length ≤ s.length := by
  have h1 : (s.dropWhile isSpaceC).length ≤ s.length :=
    (List.dropWhile_sublist _).length_le
  cases hd : s.dropWhile isSpaceC with
  | nil => simp [stoullDigitRun, hd]
  | cons c r =>
    rw [hd] at h1
    simp only [stoullDigitRun, hd]
    split
    · have := (List.takeWhile_sublist (l := r) isDigitC).length_le
      simp only [List.length_cons] at h1
      omega
    · have := (List.takeWhile_sublist (l := c :: r) isDigitC).length_le
      omega

theorem stoullDigitRun_digits (s : List Char) :
    ∀ c ∈ stoullDigitRun s, isDigitC c = true := by
  intro c hc
  cases hd : s.dropWhile isSpaceC with
  | nil => simp only [stoullDigitRun, hd] at hc; simp at hc
  | cons d r =>
    simp only [stoullDigitRun, hd] at hc
    rcases Decidable.em (d = '-' ∨ d = '+') with h | h
    · rw [if_pos h] at hc
      exact List.mem_takeWhile_imp hc
    · rw [if_neg h] at hc
      exact List.mem_takeWhile_imp hc

/-- C8 amended helper: with a valid sign and a 19-byte tail, decoding never
reports `outOfRange`. -/
theorem stoullDigitRun_no_overflow (tail : List Char) (hlen : tail.length = 19) :
    ¬ (2 ^ 64 - 1 < digitsToNat (stoullDigitRun tail)) := by
  have h1 := digitsToNat_lt _ (stoullDigitRun_digits tail)
  have h2 := stoullDigitRun_length_le tail
  rw [hlen] at h2
  have h3 : digitsToNat (stoullDigitRun tail) < 10 ^ 19 :=
    lt_of_lt_of_le h1 (Nat.pow_le_pow_right (by omega) h2)
  omega

/-- C10: a 20-byte buffer `'+'` followed by 19 digits whose value `v`
exceeds `INT64_MAX` decodes successfully to the two's-complement wrap
`v - 2 ^ 64`, a negative number. -/
theorem claim10_overflow_wraps (ds : List Char) (hlen : ds.length = 19)
    (hd : ∀ c ∈ ds, isDigitC c = true)
    (hbig : INT64_MAX < (digitsToNat ds : Int)) :
    fieldMetaSetNum ('+' :: ds) = .ok ((digitsToNat ds : Int) - 2 ^ 64) ∧
      (digitsToNat ds : Int) - 2 ^ 64 < 0 := by
  have hlt : digitsToNat ds < 10 ^ 19 := by
    have := digitsToNat_lt ds hd
    rw [hlen] at this
    exact this
  rw [fieldMetaSetNum_pos_digits ds hlen hd]
  simp only [INT64_MAX] at hbig
  have h1 : (digitsToNat ds : Int) < 10 ^ 19 := by exact_mod_cast hlt
  have h2 : wrap64 (digitsToNat ds) = (digitsToNat ds : Int) - 2 ^ 64 := by
    simp only [wrap64]
    omega
  rw [h2]
  exact ⟨rfl, by omega⟩

set_option maxRecDepth 8000

/-- Witness for C10 at `v = 2 ^ 63 = 9223372036854775808`. -/
theorem claim10_overflow_wraps_witness :
    fieldMetaSetNum ('+' :: padDigits 19 9223372036854775808) =
      .ok (-9223372036854775808) := by
  have h := claim10_overflow_wraps (padDigits 19 9223372036854775808)
    (padDigits_length 19 _)
    (padDigits_all_digit 19 _)
    (by rw [digitsToNat_padDigits]; norm_num [INT64_MAX])
  have h1 := h.1
  rw [digitsToNat_padDigits] at h1
  norm_num at h1
  exact h1

/-! ### Text line codec (`textFormatUtil.hpp`)

One line has the form `Type \x7b "k": "v", "id": 123 \x7d`.  The parser is a
recursive-descent state machine over a character pointer; we model the
pointer as the remaining character list.  `parseLine` fails (returns `none`,
the C++ `invalid_argument`) on any format violation. -/

/-- First character of a C identifier (`isalpha` or underscore). -/
def isIdentStart (c : Char) : Bool := isAlphaC c || c = '_'

/-- Subsequent character of a C identifier (`isalnum` or underscore). -/
def isIdentChar (c : Char) : Bool := isAlnumC c || c = '_'

/-- `skipWs`: advance past `isspace` characters. -/
def skipWsL (l : List Char) : List Char := l.dropWhile isSpaceC

/-- `parseIdent`: skip whitespace, require an identifier-start character,
then consume identifier characters. -/
def parseIdent (l : List Char) : Option (List Char × List Char) :=
  match skipWsL l with
  | [] => none
  | c :: rest =>
    if isIdentStart c then
      some (c :: rest.takeWhile isIdentChar, rest.dropWhile isIdentChar)
    else none

/-- Body loop of `parseQuotedString`: consume characters until the closing
quote, honouring the four legal escapes. -/
def pqsLoop (l : List Char) (acc : List Char) : Option (List Char × List Char) :=
  match l with
  | [] => none
  | c :: p =>
    if c = '"' then some (acc.reverse, p)
    else if c = '\\' then
      match p with
      | [] => none
      | e :: q =>
        if e = '"' ∨ e = '\\' then pqsLoop q (e :: acc)
        else if e = 'n' then pqsLoop q ('\n' :: acc)
        else if e = 't' then pqsLoop q ('\t' :: acc)
        else none
    else pqsLoop p (c :: acc)

/-- `parseQuotedString`: skip whitespace, require an opening quote, then run
the escape-aware body loop. -/
def parseQuotedString (l : List Char) : Option (List Char × List Char) :=
  match skipWsL l with
  | c :: p => if c = '"' then pqsLoop p [] else none
  | [] => none

/-- `parseIntToken`: skip whitespace, take an optional sign and a nonempty
digit run; the token text includes the sign and the remainder starts at the
first non-digit. -/
def parseIntToken (l : List Char) : Option (List Char × List Char) :=
  match skipWsL l with
  | [] => none
  | c :: r =>
    if c = '-' ∨ c = '+' then
      if r.takeWhile isDigitC = [] then none
      else some (c :: r.takeWhile isDigitC, r.dropWhile isDigitC)
    else
      if (c :: r).takeWhile isDigitC = [] then none
      else some ((c :: r).takeWhile isDigitC, (c :: r).dropWhile isDigitC)

/-- `escapeString`, per character: quote and backslash are backslash-escaped,
newline and tab become `\n` / `\t`, everything else is copied. -/
def escChar (c : Char) : List Char :=
  if c = '"' ∨ c = '\\' then ['\\', c]
  else if c = '\n' then ['\\', 'n']
  else if c = '\t' then ['\\', 't']
  else [c]

/-- `escapeString` over a whole value. -/
def escapeStringL : List Char → List Char
  | [] => []
  | c :: t => escChar c ++ escapeStringL t

/-- One parsed key/value entry: key, `isString` flag, raw value text. -/
abbrev TPair := List Char × Bool × List Char

/-- Dispatch on the first value character: quote means string, anything else
is tried as an integer token. -/
def parseValue (l : List Char) : Option (Bool × List Char × List Char) :=
  match l with
  | '"' :: _ => (parseQuotedString l).map (fun r => (true, r.1, r.2))
  | _ => (parseIntToken l).map (fun r => (false, r.1, r.2))

/-- The key/value loop of `parseLine`.  `acc` is the map built so far (the
C++ `unordered_map`, modelled as an insertion-ordered association list with
its duplicate check).  The fuel argument only bounds the recursion; each
iteration consumes at least one input character, so `parseLine` passes
`line.length + 1`. -/
def parsePairs : Nat → List Char → List TPair → Option (List TPair × List Char)
  | 0, _, _ => none
  | fuel + 1, l, acc =>
    match parseQuotedString l with
    | none => none
    | some (key, l1) =>
      match skipWsL l1 with
      | ':' :: l2 =>
        let l3 := skipWsL l2
        match parseValue l3 with
        | none => none
        | some (isStr, v, l4) =>
          if acc.any (fun q => q.1 = key) then none
          else
            match skipWsL l4 with
            | ',' :: l5 => parsePairs fuel l5 (acc ++ [(key, isStr, v)])
            | '\x7d' :: l5 => some (acc ++ [(key, isStr, v)], l5)
            | _ => none
      | _ => none

/-- `parseLine`: type identifier, `\x7b`, either an immediately closing
`\x7d` or the key/value loop, then nothing but whitespace to end of line. -/
def parseLine (line : List Char) : Option (List Char × List TPair) :=
  match parseIdent line with
  | none => none
  | some (type, r1) =>
    match skipWsL r1 with
    | '\x7b' :: r2 =>
      match skipWsL r2 with
      | '\x7d' :: r3 => if skipWsL r3 = [] then some (type, []) else none
      | r3 =>
        match parsePairs (line.length + 1) r3 [] with
        | some (kv, r4) => if skipWsL r4 = [] then some (type, kv) else none
        | none => none
    | _ => none

/-- `formatLine`'s value rendering: strings are quoted and escaped, numeric
values are emitted verbatim. -/
def fmtValue (isStr : Bool) (v : List Char) : List Char :=
  if isStr then '"' :: (escapeStringL v ++ ['"']) else v

/-- `formatLine`'s rendering of one `"key": value` entry. -/
def fmtPair (p : TPair) : List Char :=
  '"' :: (escapeStringL p.1 ++ '"' :: ':' :: ' ' :: fmtValue p.2.1 p.2.2)

/-- `formatLine`'s field loop with its `", "` separators. -/
def fmtPairs : List TPair → List Char
  | [] => []
  | [p] => fmtPair p
  | p :: q :: t => fmtPair p ++ ',' :: ' ' :: fmtPairs (q :: t)

/-- `formatLine`: `Type`, ` \x7b `, the fields, ` \x7d` and a newline. -/
def formatLine (type : List Char) (fields : List TPair) : List Char :=
  type ++ ' ' :: '\x7b' :: ' ' :: (fmtPairs fields ++ ' ' :: '\x7d' :: ['\n'])

/-- A type name acceptable to `parseIdent` (C identifier). -/
def identOKb (t : List Char) : Bool :=
  match t with
  | [] => false
  | c :: r => isIdentStart c && r.all isIdentChar

/-- A numeric value acceptable to `parseIntToken` with nothing left over:
an optional sign followed by a nonempty digit run. -/
def intTokOKb (v : List Char) : Bool :=
  match v with
  | [] => false
  | c :: t =>
    if c = '-' ∨ c = '+' then !t.isEmpty && t.all isDigitC
    else isDigitC c && t.all isDigitC

/-! ### Round-trip lemmas for the text codec -/

theorem skipWsL_cons_of_neg {c : Char} {l : List Char} (h : isSpaceC c = false) :
    skipWsL (c :: l) = c :: l :=
  List.dropWhile_cons_of_neg (by simp [h])

theorem skipWsL_cons_of_pos {c : Char} {l : List Char} (h : isSpaceC c = true) :
    skipWsL (c :: l) = skipWsL l :=
  List.dropWhile_cons_of_pos h

theorem skipWsL_app {ws l : List Char} (hws : ∀ c ∈ ws, isSpaceC c = true) :
    skipWsL (ws ++ l) = skipWsL l := by
  induction ws with
  | nil => simp
  | cons c t ih =>
    rw [List.cons_append, skipWsL_cons_of_pos (hws c (by simp))]
    exact ih (fun d hd => hws d (by simp [hd]))

theorem takeWhile_app_all {p : Char → Bool} {l1 l2 : List Char}
    (h1 : ∀ c ∈ l1, p c = true)
    (h2 : ∀ c t, l2 = c :: t → p c = false) :
    (l1 ++ l2).takeWhile p = l1 ∧ (l1 ++ l2).dropWhile p = l2 := by
  induction l1 with
  | nil =>
    simp only [List.nil_append]
    cases l2 with
    | nil => simp
    | cons c t =>
      have := h2 c t rfl
      rw [List.takeWhile_cons_of_neg (by simp [this]),
        List.dropWhile_cons_of_neg (by simp [this])]
      exact ⟨rfl, rfl⟩
  | cons c t ih =>
    have hc := h1 c (by simp)
    rw [List.cons_append, List.takeWhile_cons_of_pos hc, List.dropWhile_cons_of_pos hc]
    have := ih (fun d hd => h1 d (by simp [hd]))
    exact ⟨by rw [this.1], this.2⟩

theorem identStart_not_space {c : Char} (h : isIdentStart c = true) :
    isSpaceC c = false := by
  simp only [isIdentStart, isAlphaC, Bool.or_eq_true, Bool.and_eq_true,
    decide_eq_true_eq] at h
  simp only [isSpaceC, Bool.or_eq_false_iff, beq_eq_false_iff_ne, ne_eq,
    Bool.and_eq_false_iff, decide_eq_false_iff_not, not_le]
  rcases h with (h | h) | h
  · omega
  · omega
  · subst h; refine ⟨by decide, ?_⟩; right; decide

theorem sign_or_digit_not_space {c : Char}
    (h : c = '-' ∨ c = '+' ∨ isDigitC c = true) : isSpaceC c = false := by
  rcases h with rfl | rfl | h
  · decide
  · decide
  · exact not_isSpaceC_of_isDigitC h

theorem sign_or_digit_ne_quote {c : Char}
    (h : c = '-' ∨ c = '+' ∨ isDigitC c = true) : c ≠ '"' := by
  rcases h with rfl | rfl | h
  · decide
  · decide
  · simp only [isDigitC, Bool.and_eq_true, decide_eq_true_eq] at h
    intro hq; subst hq; revert h; decide

theorem pqsLoop_quote (p acc : List Char) :
    pqsLoop ('"' :: p) acc = some (acc.reverse, p) := by
  rw [pqsLoop.eq_def]; simp

theorem pqsLoop_escPair (e : Char) (p acc : List Char) (h : e = '"' ∨ e = '\\') :
    pqsLoop ('\\' :: e :: p) acc = pqsLoop p (e :: acc) := by
  rw [pqsLoop.eq_def]; simp [h]

theorem pqsLoop_escN (p acc : List Char) :
    pqsLoop ('\\' :: 'n' :: p) acc = pqsLoop p ('\n' :: acc) := by
  rw [pqsLoop.eq_def]; simp

theorem pqsLoop_escT (p acc : List Char) :
    pqsLoop ('\\' :: 't' :: p) acc = pqsLoop p ('\t' :: acc) := by
  rw [pqsLoop.eq_def]; simp

theorem pqsLoop_other (c : Char) (p acc : List Char)
    (h1 : ¬ c = '"') (h2 : ¬ c = '\\') :
    pqsLoop (c :: p) acc = pqsLoop p (c :: acc) := by
  rw [pqsLoop.eq_def]
  simp only [h1, h2, if_false]

/-- The escape-aware string body loop undoes `escapeString`. -/
theorem pqsLoop_escape (s : List Char) (rest acc : List Char) :
    pqsLoop (escapeStringL s ++ '"' :: rest) acc = some (acc.reverse ++ s, rest) := by
  induction s generalizing acc with
  | nil => rw [escapeStringL, List.nil_append, pqsLoop_quote]; simp
  | cons c t ih =>
    by_cases h1 : c = '"' ∨ c = '\\'
    · have he : escapeStringL (c :: t) = '\\' :: c :: escapeStringL t := by
        simp [escapeStringL, escChar, h1]
      rw [he, List.cons_append, List.cons_append, pqsLoop_escPair c _ _ h1, ih (c :: acc)]
      simp
    · by_cases h2 : c = '\n'
      · subst h2
        have he : escapeStringL ('\n' :: t) = '\\' :: 'n' :: escapeStringL t := by
          simp [escapeStringL, escChar]
        rw [he, List.cons_append, List.cons_append, pqsLoop_escN, ih ('\n' :: acc)]
        simp
      · by_cases h3 : c = '\t'
        · subst h3
          have he : escapeStringL ('\t' :: t) = '\\' :: 't' :: escapeStringL t := by
            simp [escapeStringL, escChar]
          rw [he, List.cons_append, List.cons_append, pqsLoop_escT, ih ('\t' :: acc)]
          simp
        · have he : escapeStringL (c :: t) = c :: escapeStringL t := by
            simp [escapeStringL, escChar, h1, h2, h3]
          have hq : ¬ c = '"' := fun h => h1 (Or.inl h)
          have hb : ¬ c = '\\' := fun h => h1 (Or.inr h)
          rw [he, List.cons_append, pqsLoop_other c _ _ hq hb, ih (c :: acc)]
          simp

/-- `parseQuotedString` undoes quoting plus `escapeString`, for any leading
whitespace. -/
theorem parseQuotedString_escape (ws s rest : List Char)
    (hws : ∀ c ∈ ws, isSpaceC c = true) :
    parseQuotedString (ws ++ '"' :: (escapeStringL s ++ '"' :: rest)) =
      some (s, rest) := by
  rw [parseQuotedString, skipWsL_app hws, skipWsL_cons_of_neg (by decide)]
  simp [pqsLoop_escape]

/-- `parseIdent` consumes exactly a well-formed identifier. -/
theorem parseIdent_format (c : Char) (t rest : List Char)
    (hc : isIdentStart c = true) (ht : ∀ d ∈ t, isIdentChar d = true)
    (hrest : ∀ d r, rest = d :: r → isIdentChar d = false) :
    parseIdent ((c :: t) ++ rest) = some (c :: t, rest) := by
  have happ := takeWhile_app_all (p := isIdentChar) ht hrest
  rw [parseIdent, List.cons_append, skipWsL_cons_of_neg (identStart_not_space hc)]
  simp only []
  rw [if_pos hc, happ.1, happ.2]

/-- `parseIntToken` consumes exactly a well-formed integer token. -/
theorem parseIntToken_format (v rest : List Char) (hv : intTokOKb v = true)
    (hrest : ∀ d r, rest = d :: r → isDigitC d = false) :
    parseIntToken (v ++ rest) = some (v, rest) := by
  cases v with
  | nil => simp [intTokOKb] at hv
  | cons c t =>
    simp only [intTokOKb] at hv
    by_cases hs : c = '-' ∨ c = '+'
    · rw [if_pos hs] at hv
      simp only [Bool.and_eq_true, Bool.not_eq_true', List.isEmpty_eq_false_iff_exists_mem,
        List.all_eq_true] at hv
      obtain ⟨hne, ht⟩ := hv
      have hcs : isSpaceC c = false :=
        sign_or_digit_not_space (by rcases hs with h | h <;> simp [h])
      have happ := takeWhile_app_all (p := isDigitC) ht hrest
      rw [parseIntToken, List.cons_append, skipWsL_cons_of_neg hcs]
      simp only []
      rw [if_pos hs, happ.1, happ.2]
      rcases hne with ⟨d, hd⟩
      rw [if_neg (by intro h; rw [h] at hd; simp at hd)]
    · rw [if_neg hs] at hv
      simp only [Bool.and_eq_true, List.all_eq_true] at hv
      obtain ⟨hc, ht⟩ := hv
      have happ := takeWhile_app_all (p := isDigitC) ht hrest
      rw [parseIntToken, List.cons_append, skipWsL_cons_of_neg (not_isSpaceC_of_isDigitC hc)]
      simp only []
      rw [if_neg hs, List.takeWhile_cons_of_pos hc, List.dropWhile_cons_of_pos hc,
        happ.1, happ.2]
      simp

/-- `parseValue` on a quoted, escaped string value. -/
theorem parseValue_str (s rest : List Char) :
    parseValue ('"' :: (escapeStringL s ++ '"' :: rest)) = some (true, s, rest) := by
  rw [parseValue.eq_def]
  simp only []
  have h := parseQuotedString_escape [] s rest (by simp)
  rw [List.nil_append] at h
  rw [h]
  rfl

/-- `parseValue` on an integer-token value. -/
theorem parseValue_int (v rest : List Char) (hv : intTokOKb v = true)
    (hrest : ∀ d r, rest = d :: r → isDigitC d = false) :
    parseValue (v ++ rest) = some (false, v, rest) := by
  cases v with
  | nil => simp [intTokOKb] at hv
  | cons c t =>
    have hcq : c ≠ '"' := by
      apply sign_or_digit_ne_quote
      simp only [intTokOKb] at hv
      by_cases hs : c = '-' ∨ c = '+'
      · rcases hs with h | h
        · exact Or.inl h
        · exact Or.inr (Or.inl h)
      · rw [if_neg hs] at hv
        simp only [Bool.and_eq_true] at hv
        exact Or.inr (Or.inr hv.1)
    rw [parseValue.eq_def]
    split
    · rename_i heq
      rw [List.cons_append] at heq
      cases heq
      exact absurd rfl hcq
    · rw [parseIntToken_format _ _ hv hrest]
      rfl

theorem fmtValue_int_head (v : List Char) (hv : intTokOKb v = true) :
    ∃ c t, v = c :: t ∧ isSpaceC c = false := by
  cases v with
  | nil => simp [intTokOKb] at hv
  | cons c t =>
    refine ⟨c, t, rfl, ?_⟩
    apply sign_or_digit_not_space
    simp only [intTokOKb] at hv
    by_cases hs : c = '-' ∨ c = '+'
    · rcases hs with h | h
      · exact Or.inl h
      · exact Or.inr (Or.inl h)
    · rw [if_neg hs] at hv
      simp only [Bool.and_eq_true] at hv
      exact Or.inr (Or.inr hv.1)

/-- Parsing one formatted `"key": value` entry followed by a separator
context `X`: the loop consumes the entry and dispatches on what follows. -/
theorem parsePairs_onePair (k : List Char) (b : Bool) (v : List Char)
    (X : List Char) (acc : List TPair) (n : Nat) (ws0 : List Char)
    (hws0 : ∀ c ∈ ws0, isSpaceC c = true)
    (hv : b = false → intTokOKb v = true)
    (hdupk : ∀ p ∈ acc, p.1 ≠ k)
    (hXd : ∀ d r, X = d :: r → isDigitC d = false) :
    parsePairs (n + 1)
      (ws0 ++ ('"' :: (escapeStringL k ++ '"' :: ':' :: ' ' :: (fmtValue b v ++ X)))) acc =
      (match skipWsL X with
       | ',' :: l5 => parsePairs n l5 (acc ++ [(k, b, v)])
       | '\x7d' :: l5 => some (acc ++ [(k, b, v)], l5)
       | _ => none) := by
  rw [parsePairs]
  rw [parseQuotedString_escape ws0 k (':' :: ' ' :: (fmtValue b v ++ X)) hws0]
  simp only []
  rw [skipWsL_cons_of_neg (by decide)]
  simp only []
  rw [skipWsL_cons_of_pos (by decide)]
  have hval : parseValue (skipWsL (fmtValue b v ++ X)) = some (b, v, X) := by
    cases b with
    | true =>
      simp only [fmtValue, if_pos]
      rw [List.cons_append, skipWsL_cons_of_neg (by decide), List.append_assoc,
        List.singleton_append]
      exact parseValue_str v X
    | false =>
      simp only [fmtValue, Bool.false_eq_true, if_false]
      obtain ⟨c, t, rfl, hcs⟩ := fmtValue_int_head v (hv rfl)
      rw [List.cons_append, skipWsL_cons_of_neg hcs, ← List.cons_append]
      exact parseValue_int (c :: t) X (hv rfl) hXd
  rw [hval]
  simp only []
  rw [if_neg (by
    simp only [List.any_eq_true, decide_eq_true_eq, not_exists]
    intro p
    simp only [not_and]
    intro hp
    exact hdupk p hp)]

/-- The key/value loop consumes a whole formatted field list up to the
closing `\x7d` and returns the fields in order. -/
theorem parsePairs_format (fs : List TPair) (f : TPair) (acc : List TPair)
    (fuel : Nat) (hfuel : fs.length < fuel)
    (ws0 tailWs : List Char)
    (hws0 : ∀ c ∈ ws0, isSpaceC c = true)
    (hdup : ∀ p ∈ acc, ∀ q ∈ f :: fs, p.1 ≠ q.1)
    (hpw : List.Pairwise (fun a b : TPair => a.1 ≠ b.1) (f :: fs))
    (hints : ∀ p ∈ f :: fs, p.2.1 = false → intTokOKb p.2.2 = true) :
    parsePairs fuel (ws0 ++ (fmtPairs (f :: fs) ++ ' ' :: '\x7d' :: tailWs)) acc =
      some (acc ++ f :: fs, tailWs) := by
  induction fs generalizing f acc fuel ws0 with
  | nil =>
    obtain ⟨k, b, v⟩ := f
    cases fuel with
    | zero => omega
    | succ n =>
      have hstep := parsePairs_onePair k b v (' ' :: '\x7d' :: tailWs) acc n ws0 hws0
        (fun hb => hints (k, b, v) (by simp) hb)
        (fun p hp => (hdup p hp (k, b, v) (by simp)))
        (by rintro d r rfl1; cases rfl1; decide)
      rw [fmtPairs, fmtPair]
      simp only [List.cons_append, List.append_assoc, List.nil_append] at hstep ⊢
      rw [hstep]
      rw [skipWsL_cons_of_pos (by decide), skipWsL_cons_of_neg (by decide)]
      rfl
  | cons g gs ih =>
    obtain ⟨k, b, v⟩ := f
    cases fuel with
    | zero => omega
    | succ n =>
      have hstep := parsePairs_onePair k b v
        (',' :: ' ' :: (fmtPairs (g :: gs) ++ ' ' :: '\x7d' :: tailWs)) acc n ws0 hws0
        (fun hb => hints (k, b, v) (by simp) hb)
        (fun p hp => (hdup p hp (k, b, v) (by simp)))
        (by rintro d r rfl1; cases rfl1; decide)
      rw [fmtPairs, fmtPair]
      simp only [List.cons_append, List.append_assoc, List.nil_append] at hstep ⊢
      rw [hstep]
      rw [skipWsL_cons_of_neg (by decide)]
      simp only []
      have hpw' := (List.pairwise_cons.mp hpw)
      have ihh := ih g (acc ++ [(k, b, v)]) n (by simp at hfuel ⊢; omega) [' ']
        (by intro c hc; simp at hc; subst hc; decide)
        (by
          intro p hp q hq
          rcases List.mem_append.mp hp with hp1 | hp1
          · exact hdup p hp1 q (List.mem_cons_of_mem _ hq)
          · simp only [List.mem_singleton] at hp1
            subst hp1
            exact hpw'.1 q hq)
        hpw'.2
        (fun p hp hb => hints p (List.mem_cons_of_mem _ hp) hb)
      simp only [List.singleton_append, List.append_assoc] at ihh
      rw [ihh]

theorem fmtPairs_cons_head (f : TPair) (fs : List TPair) :
    ∃ l, fmtPairs (f :: fs) = '"' :: l := by
  cases fs with
  | nil => exact ⟨_, rfl⟩
  | cons g gs => exact ⟨_, rfl⟩

theorem fmtPairs_length_ge (fs : List TPair) : fs.length ≤ (fmtPairs fs).length := by
  induction fs with
  | nil => simp [fmtPairs]
  | cons f gs ih =>
    cases gs with
    | nil => simp [fmtPairs, fmtPair]
    | cons g hs =>
      rw [fmtPairs]
      simp only [List.length_cons, List.length_append, fmtPair] at ih ⊢
      omega

/-- Round trip of the text line codec: `parseLine` recovers the type name
and the field list from `formatLine` output, provided the type name is a
valid identifier, keys are distinct, and numeric values are integer
tokens. -/
theorem parseLine_formatLine (t : List Char) (fields : List TPair)
    (hid : identOKb t = true)
    (hpw : List.Pairwise (fun a b : TPair => a.1 ≠ b.1) fields)
    (hints : ∀ p ∈ fields, p.2.1 = false → intTokOKb p.2.2 = true) :
    parseLine (formatLine t fields) = some (t, fields) := by
  obtain ⟨c, tr⟩ : ∃ c tr, t = c :: tr := by
    cases t with
    | nil => simp [identOKb] at hid
    | cons c tr => exact ⟨c, tr, rfl⟩
  obtain ⟨tr, rfl⟩ := tr
  simp only [identOKb, Bool.and_eq_true, List.all_eq_true] at hid
  rw [parseLine, formatLine]
  rw [parseIdent_format c tr _ hid.1 hid.2 (by rintro d r rfl1; cases rfl1; decide)]
  simp only []
  rw [skipWsL_cons_of_pos (by decide), skipWsL_cons_of_neg (by decide)]
  simp only []
  cases fields with
  | nil =>
    rw [fmtPairs]
    simp only [List.nil_append]
    rw [skipWsL_cons_of_pos (by decide), skipWsL_cons_of_pos (by decide),
      skipWsL_cons_of_neg (by decide)]
    simp only []
    rw [show skipWsL ['\n'] = [] from by decide]
    simp
  | cons f fs =>
    obtain ⟨lrest, hhead⟩ := fmtPairs_cons_head f fs
    have hfuel : fs.length < (formatLine (c :: tr) (f :: fs)).length + 1 := by
      have h1 := fmtPairs_length_ge (f :: fs)
      simp only [formatLine, List.length_append, List.length_cons] at h1 ⊢
      omega
    have hp := parsePairs_format fs f [] ((formatLine (c :: tr) (f :: fs)).length + 1)
      hfuel [] ['\n'] (by simp) (by simp) hpw hints
    rw [hhead] at hp ⊢
    simp only [List.nil_append, List.cons_append, List.append_assoc] at hp ⊢
    rw [skipWsL_cons_of_pos (by decide), skipWsL_cons_of_neg (by decide)]
    rw [formatLine] at hp
    rw [hhead] at hp
    simp only [List.cons_append, List.append_assoc] at hp
    split
    · rename_i heq
      simp at heq
    · rw [hp]
      simp only []
      rw [show skipWsL ['\n'] = [] from by decide]
      simp

/-- `FieldMeta::set` undoes `FieldMeta::get` on every representable
`int64_t`, including `INT64_MIN` and `INT64_MAX`. -/
theorem fieldMetaSetNum_getNum (val : Int)
    (h1 : INT64_MIN ≤ val) (h2 : val ≤ INT64_MAX) :
    fieldMetaSetNum (fieldMetaGetNum val) = .ok val := by
  simp only [INT64_MIN, INT64_MAX] at h1 h2
  by_cases h0 : 0 ≤ val
  · simp only [fieldMetaGetNum, if_pos h0]
    rw [fieldMetaSetNum]
    rw [if_neg (by simp)]
    rw [stoullModel_digits _ (by
        intro h; have := congrArg List.length h; simp [padDigits_length] at this)
      (padDigits_all_digit 19 _) (by simp [padDigits_length])]
    simp only []
    rw [if_neg (by decide), digitsToNat_padDigits]
    have hval : val.toNat % 10 ^ 19 = val.toNat := by
      apply Nat.mod_eq_of_lt
      omega
    rw [hval]
    have : ((val.toNat : Int)) = val := Int.toNat_of_nonneg h0
    rw [wrap64_small (by omega) (by omega), this]
  · simp only [fieldMetaGetNum, if_neg h0]
    rw [fieldMetaSetNum]
    rw [if_neg (by simp)]
    rw [stoullModel_digits _ (by
        intro h; have := congrArg List.length h; simp [padDigits_length] at this)
      (padDigits_all_digit 19 _) (by simp [padDigits_length])]
    simp only [if_true]
    rw [digitsToNat_padDigits]
    have hcast : (((-(val + 1)).toNat + 1 : Nat) : Int) = -val := by omega
    have hlt : (-(val + 1)).toNat + 1 < 10 ^ 19 := by omega
    rw [Nat.mod_eq_of_lt hlt]
    have hfin : wrap64 (-wrap64 (((-(val + 1)).toNat + 1 : Nat) : Int)) = val := by
      simp only [wrap64]
      omega
    rw [hfin]

end FdFileV

namespace FdFileV

/-- C1: decoding the encoding of a valid record restores it, for both
codecs.  Fixed binary codec: `FieldMeta::set` applied to the buffer written
by `FieldMeta::get` restores the original `int64_t` (for the whole
representable range, including `INT64_MIN` and `INT64_MAX`) and the original
string field bytes.  Text codec: `parseLine` applied to the output of
`formatLine` restores the type name and the key/value pairs, for every valid
record (identifier-shaped type name, distinct keys, integer-token numeric
values). -/
theorem claim1_roundtrip (val : Int) (len : Nat) (v : List Char)
    (t : List Char) (fields : List TPair)
    (h1 : INT64_MIN ≤ val) (h2 : val ≤ INT64_MAX) (h3 : v.length = len)
    (h4 : identOKb t = true)
    (h5 : List.Pairwise (fun a b : TPair => a.1 ≠ b.1) fields)
    (h6 : ∀ p ∈ fields, p.2.1 = false → intTokOKb p.2.2 = true) :
    fieldMetaSetNum (fieldMetaGetNum val) = .ok val ∧
    fieldMetaSetStr len (fieldMetaGetStr v) = v ∧
    parseLine (formatLine t fields) = some (t, fields) := by
  refine ⟨fieldMetaSetNum_getNum val h1 h2, ?_, parseLine_formatLine t fields h4 h5 h6⟩
  simp only [fieldMetaSetStr, fieldMetaGetStr]
  rw [← h3]
  exact List.take_length v

/-- Witness for C1 at `INT64_MIN`, `INT64_MAX`, a 3-byte string field, and a
one-field record line. -/
theorem claim1_roundtrip_witness :
    (fieldMetaSetNum (fieldMetaGetNum INT64_MIN) = .ok INT64_MIN ∧
     fieldMetaSetStr 3 (fieldMetaGetStr ['a', 'b', 'c']) = ['a', 'b', 'c'] ∧
     parseLine (formatLine ['A'] [(['i', 'd'], false, ['7'])]) =
       some (['A'], [(['i', 'd'], false, ['7'])])) ∧
    fieldMetaSetNum (fieldMetaGetNum INT64_MAX) = .ok INT64_MAX := by
  constructor
  · exact claim1_roundtrip INT64_MIN 3 ['a', 'b', 'c'] ['A']
      [(['i', 'd'], false, ['7'])] (le_refl _)
      (by norm_num [INT64_MIN, INT64_MAX]) rfl (by decide)
      (by simp)
      (by intro p hp hb; simp only [List.mem_singleton] at hp; subst hp; decide)
  · exact (claim1_roundtrip INT64_MAX 0 [] ['A'] []
      (by norm_num [INT64_MIN, INT64_MAX]) (le_refl _) rfl (by decide)
      (by simp) (by simp)).1

/-- C8 counterexample: the 20-byte buffer `+1a0000000000000000` (sign valid,
19-byte tail containing the non-digit `a`) is accepted by `FieldMeta::set`
and decodes to `1`, because `std::stoull` stops at the first non-digit
instead of validating all 19 bytes. -/
theorem claim8_counterexample :
    fieldMetaSetNum ('+' :: '1' :: 'a' :: List.replicate 17 '0') = .ok 1 ∧
    ('+' :: '1' :: 'a' :: List.replicate 17 '0').length = 20 ∧
    ¬ (∀ c ∈ ('1' :: 'a' :: List.replicate 17 '0'), isDigitC c = true) := by
  refine ⟨?_, by simp, by decide⟩
  rfl

/-- C8 amended: for a 20-byte numeric buffer, `FieldMeta::set` fails with
the malformed-field error exactly when the first byte is neither `+` nor
`-`; with a valid sign it fails with the invalid-digits error exactly when
`std::stoull` finds no digit run in the 19-byte tail (after optional
whitespace and one optional extra sign); when a digit run exists the decode
succeeds, ignoring any trailing non-digit bytes. -/
theorem claim8_set_errors (sign : Char) (tail : List Char)
    (hlen : tail.length = 19) :
    (fieldMetaSetNum (sign :: tail) = .error .malformedField ↔
      ¬ (sign = '+' ∨ sign = '-')) ∧
    ((sign = '+' ∨ sign = '-') →
      (fieldMetaSetNum (sign :: tail) = .error .invalidDigits ↔
        stoullDigitRun tail = [])) ∧
    ((sign = '+' ∨ sign = '-') → stoullDigitRun tail ≠ [] →
      ∃ v, fieldMetaSetNum (sign :: tail) = .ok v) := by
  have hofr := stoullDigitRun_no_overflow tail hlen
  by_cases hs : sign = '+' ∨ sign = '-'
  · have hne : ¬ (sign ≠ '+' ∧ sign ≠ '-') := by tauto
    by_cases hrun : stoullDigitRun tail = []
    · have hst : stoullModel tail = .error .invalidDigits := by
        simp [stoullModel, hrun]
      rw [fieldMetaSetNum, if_neg hne, hst]
      simp only []
      refine ⟨by simp [hs], fun _ => by simp [hrun], fun _ h => absurd hrun h⟩
    · have hst : stoullModel tail =
          .ok (if stoullNeg tail
            then (2 ^ 64 - digitsToNat (stoullDigitRun tail) % 2 ^ 64) % 2 ^ 64
            else digitsToNat (stoullDigitRun tail)) := by
        simp only [stoullModel]
        rw [if_neg (by simp [hrun]), if_neg hofr]
      rw [fieldMetaSetNum, if_neg hne, hst]
      simp only []
      refine ⟨?_, fun _ => ?_, fun _ _ => ?_⟩
      · constructor
        · intro h
          split at h <;> simp at h
        · intro h
          exact absurd hs h
      · constructor
        · intro h
          split at h <;> simp at h
        · intro h
          exact absurd h hrun
      · split
        · exact ⟨_, rfl⟩
        · exact ⟨_, rfl⟩
  · rw [fieldMetaSetNum, if_pos (by tauto)]
    refine ⟨by simp [hs], fun h => absurd h hs, fun h => absurd h hs⟩

/-- Witness for C8 amended: a bad sign byte, an all-space tail (no digit
run), and a digit-bearing tail, each on a 20-byte buffer. -/
theorem claim8_set_errors_witness :
    ((fieldMetaSetNum ('x' :: List.replicate 19 '0') = .error .malformedField ↔
        ¬ ('x' = '+' ∨ 'x' = '-')) ∧
      (('x' = '+' ∨ 'x' = '-') →
        (fieldMetaSetNum ('x' :: List.replicate 19 '0') = .error .invalidDigits ↔
          stoullDigitRun (List.replicate 19 '0') = [])) ∧
      (('x' = '+' ∨ 'x' = '-') → stoullDigitRun (List.replicate 19 '0') ≠ [] →
        ∃ v, fieldMetaSetNum ('x' :: List.replicate 19 '0') = .ok v)) ∧
    ((fieldMetaSetNum ('-' :: List.replicate 19 ' ') = .error .malformedField ↔
        ¬ ('-' = '+' ∨ '-' = '-')) ∧
      (('-' = '+' ∨ '-' = '-') →
        (fieldMetaSetNum ('-' :: List.replicate 19 ' ') = .error .invalidDigits ↔
          stoullDigitRun (List.replicate 19 ' ') = [])) ∧
      (('-' = '+' ∨ '-' = '-') → stoullDigitRun (List.replicate 19 ' ') ≠ [] →
        ∃ v, fieldMetaSetNum ('-' :: List.replicate 19 ' ') = .ok v)) :=
  ⟨claim8_set_errors 'x' (List.replicate 19 '0') (by simp),
   claim8_set_errors '-' (List.replicate 19 ' ') (by simp)⟩

/-! ### Text reader comment and blank-line handling (`FdTextFile.cpp`)

`stripCommentOutsideQuotes` walks the line with an in-string/escape
automaton, truncates at the first `#` seen outside quotes, then removes
trailing spaces, tabs and carriage returns.  `readNextRecordLine` strips
every line and skips lines that are blank after stripping. -/

/-- A character removed by the reader's trailing trim (space, tab, CR). -/
def isTrimC (c : Char) : Bool := c = ' ' ∨ c = '\t' ∨ c = '\r'

/-- The truncating pass of `stripCommentOutsideQuotes`: copy characters,
tracking the in-string and escape states, and cut at a `#` outside
quotes. -/
def cutHash : List Char → Bool → Bool → List Char
  | [], _, _ => []
  | c :: rest, inStr, esc =>
    if inStr then
      if esc then c :: cutHash rest true false
      else if c = '\\' then c :: cutHash rest true true
      else if c = '"' then c :: cutHash rest false false
      else c :: cutHash rest true false
    else
      if c = '"' then c :: cutHash rest true false
      else if c = '#' then []
      else c :: cutHash rest false false

/-- The in-string/escape state after scanning a line prefix (used to state
when a `#` is outside quotes).  A `#` outside quotes stops the scan. -/
def scanStr : List Char → Bool → Bool → Bool × Bool
  | [], inStr, esc => (inStr, esc)
  | c :: rest, inStr, esc =>
    if inStr then
      if esc then scanStr rest true false
      else if c = '\\' then scanStr rest true true
      else if c = '"' then scanStr rest false false
      else scanStr rest true false
    else
      if c = '"' then scanStr rest true false
      else if c = '#' then (inStr, esc)
      else scanStr rest false false

/-- The reader's trailing trim of spaces, tabs and carriage returns. -/
def rtrimC (s : List Char) : List Char := (s.reverse.dropWhile isTrimC).reverse

/-- `FdTextFile::stripCommentOutsideQuotes`. -/
def stripCommentOutsideQuotes (s : List Char) : List Char :=
  rtrimC (cutHash s false false)

/-- `FdTextFile::isBlankAfterTrimLeft`: nothing but spaces, tabs, CRs. -/
def isBlankAfterTrimLeft (s : List Char) : Bool := s.all isTrimC

/-- The record-line stream produced by repeatedly calling
`FdTextFile::readNextRecordLine`: every line is comment-stripped and
trimmed; lines blank after that are skipped. -/
def readRecordTexts (lines : List (List Char)) : List (List Char) :=
  lines.filterMap (fun l =>
    let s := stripCommentOutsideQuotes l
    if isBlankAfterTrimLeft s then none else some s)

/-- When the prefix `r` contains no comment start, cutting continues into
the suffix at the scanned state. -/
theorem cutHash_app (r s : List Char) (inStr esc : Bool)
    (h : cutHash r inStr esc = r) :
    cutHash (r ++ s) inStr esc =
      r ++ cutHash s (scanStr r inStr esc).1 (scanStr r inStr esc).2 := by
  induction r generalizing inStr esc with
  | nil => simp [scanStr]
  | cons c rest ih =>
    cases inStr with
    | true =>
      cases esc with
      | true =>
        simp [cutHash, scanStr] at h ⊢
        exact ih true false h
      | false =>
        by_cases hb : c = '\\'
        · subst hb
          simp [cutHash, scanStr] at h ⊢
          exact ih true true h
        · by_cases hq : c = '"'
          · subst hq
            simp [cutHash, scanStr] at h ⊢
            exact ih false false h
          · simp [cutHash, scanStr, hb, hq] at h ⊢
            exact ih true false h
    | false =>
      by_cases hq : c = '"'
      · subst hq
        simp [cutHash, scanStr] at h ⊢
        exact ih true false h
      · by_cases hh : c = '#'
        · subst hh
          simp [cutHash] at h
        · simp [cutHash, scanStr, hq, hh] at h ⊢
          exact ih false false h

end FdFileV

namespace FdFileV

/-- C7: in the text reader, a `#` outside a quoted string starts a comment
running to end of line that is stripped before parsing — a line whose record
text `r` (free of outside-quote `#`, quotes balanced, no trailing trim
characters) is followed by `#` and any comment text still yields exactly
`r`, so it parses as the same record — and a line that is blank after
comment-stripping and trimming is skipped entirely by the record-line
reader. -/
theorem claim7_comments (r c l : List Char) (rest : List (List Char))
    (hcut : cutHash r false false = r)
    (hout : (scanStr r false false).1 = false)
    (hnt : rtrimC r = r) :
    stripCommentOutsideQuotes (r ++ '#' :: c) = r ∧
    parseLine (stripCommentOutsideQuotes (r ++ '#' :: c)) = parseLine r ∧
    (isBlankAfterTrimLeft (stripCommentOutsideQuotes l) = true →
      readRecordTexts (l :: rest) = readRecordTexts rest) := by
  have h1 : stripCommentOutsideQuotes (r ++ '#' :: c) = r := by
    rw [stripCommentOutsideQuotes, cutHash_app r ('#' :: c) false false hcut]
    have h2 : cutHash ('#' :: c) (scanStr r false false).1
        (scanStr r false false).2 = [] := by
      rw [hout]
      simp [cutHash]
    rw [h2, List.append_nil, hnt]
  refine ⟨h1, by rw [h1], ?_⟩
  intro hb
  simp [readRecordTexts, hb]

/-- Witness for C7: the record text `A \x7b \x7d` followed by a `# note`
comment still strips to itself, and the pure-comment line `  #z` is
skipped. -/
theorem claim7_comments_witness :
    stripCommentOutsideQuotes (['A', ' ', '\x7b', ' ', '\x7d'] ++
      '#' :: [' ', 'n', 'o', 't', 'e']) = ['A', ' ', '\x7b', ' ', '\x7d'] ∧
    parseLine (stripCommentOutsideQuotes (['A', ' ', '\x7b', ' ', '\x7d'] ++
      '#' :: [' ', 'n', 'o', 't', 'e'])) =
      parseLine ['A', ' ', '\x7b', ' ', '\x7d'] ∧
    (isBlankAfterTrimLeft (stripCommentOutsideQuotes [' ', '#', 'z']) = true →
      readRecordTexts ([' ', '#', 'z'] :: [['A', ' ', '\x7b', ' ', '\x7d']]) =
        readRecordTexts [['A', ' ', '\x7b', ' ', '\x7d']]) :=
  claim7_comments ['A', ' ', '\x7b', ' ', '\x7d'] [' ', 'n', 'o', 't', 'e']
    [' ', '#', 'z'] [['A', ' ', '\x7b', ' ', '\x7d']]
    (by decide) (by decide) (by decide)

/-! ### Fixed-Slot Store (`UniformFixedRepositoryImpl.hpp`)

The store is a C++ template over the concrete record type `T`; we mirror
that by parametrising over a codec bundle carrying `recordSize()`,
`serialize`, `deserialize` and `getId`, with the laws every well-formed
record type provides (fixed serialized width; deserialize inverts
serialize).  The memory-mapped file is the byte list `file`; `stat` results
are the pair `(mtime, file.length)`; every write bumps `mtime`. -/

/-- The interface `UniformFixedRepositoryImpl<T>` consumes from its record
type parameter. -/
structure FCodec (Rec : Type) where
  rsize : Nat
  ser : Rec → List Char
  deser : List Char → Option Rec
  rid : Rec → List Char
  rsize_pos : 0 < rsize
  ser_len : ∀ r, (ser r).length = rsize
  deser_ser : ∀ r, deser (ser r) = some r

/-- Handle state: mapped file bytes, the id→slot-index cache, the
remembered `(mtime, size)` pair, and the file's actual mtime. -/
structure FixedRepo where
  file : List Char
  idCache : List (List Char × Nat)
  lastMtime : Nat
  lastSize : Nat
  mtime : Nat

/-- Errors of the fixed store: `corruptStore` is the misaligned-size
`invalid_argument`; `badRecord` is a slot that failed to deserialize during
a cache rebuild. -/
inductive RepoErr where
  | corruptStore
  | badRecord
deriving DecidableEq, Repr

/-- `slotCount`: mapped length divided by the record size. -/
def slotCount (c : FCodec Rec) (file : List Char) : Nat := file.length / c.rsize

/-- The byte range of slot `i`. -/
def readSlot (c : FCodec Rec) (file : List Char) (i : Nat) : List Char :=
  (file.drop (i * c.rsize)).take c.rsize

/-- `memcpy` of `bytes` into the mapping at byte offset `off`. -/
def writeBytes (file : List Char) (off : Nat) (bytes : List Char) : List Char :=
  file.take off ++ bytes ++ file.drop (off + bytes.length)

/-- `unordered_map` assignment `m[k] = v`. -/
def assocSet (m : List (List Char × Nat)) (k : List Char) (v : Nat) :
    List (List Char × Nat) :=
  if m.any (fun p => p.1 = k) then m.map (fun p => if p.1 = k then (k, v) else p)
  else m ++ [(k, v)]

/-- `unordered_map::find` on the id cache. -/
def assocGet (m : List (List Char × Nat)) (k : List Char) : Option Nat :=
  (m.find? (fun p => p.1 = k)).map (·.2)

/-- The loop of `rebuildCache`: deserialize slots `i, i+1, ...` (`k` of
them), recording `id ↦ index`; the first failure aborts the whole
rebuild. -/
def rebuildFrom (c : FCodec Rec) (file : List Char) :
    Nat → Nat → List (List Char × Nat) → Option (List (List Char × Nat))
  | _, 0, acc => some acc
  | i, k + 1, acc =>
    match c.deser (readSlot c file i) with
    | none => none
    | some rec => rebuildFrom c file (i + 1) k (assocSet acc (c.rid rec) i)

/-- `rebuildCache`: scan every slot. -/
def rebuildCache (c : FCodec Rec) (file : List Char) :
    Option (List (List Char × Nat)) :=
  rebuildFrom c file 0 (slotCount c file) []

/-- `checkAndRefreshCache`: if the `(mtime, size)` pair changed, reject a
misaligned size as corrupt, otherwise remap and rebuild the cache and
remember the new pair. -/
def checkAndRefreshCache (c : FCodec Rec) (s : FixedRepo) :
    Except RepoErr FixedRepo :=
  if s.mtime ≠ s.lastMtime ∨ s.file.length ≠ s.lastSize then
    if 0 < s.file.length ∧ s.file.length % c.rsize ≠ 0 then .error .corruptStore
    else
      match rebuildCache c s.file with
      | none => .error .badRecord
      | some cache =>
        .ok { s with idCache := cache, lastMtime := s.mtime,
                     lastSize := s.file.length }
  else .ok s

/-- Constructor: open or create, reject a size that is not a whole multiple
of the record size, then build the cache from the existing content. -/
def mkRepo (c : FCodec Rec) (file : List Char) (m : Nat) :
    Except RepoErr FixedRepo :=
  if 0 < file.length ∧ file.length % c.rsize ≠ 0 then .error .corruptStore
  else if 0 < file.length then
    match rebuildCache c file with
    | none => .error .badRecord
    | some cache =>
      .ok { file := file, idCache := cache, lastMtime := m,
            lastSize := file.length, mtime := m }
  else
    .ok { file := file, idCache := [], lastMtime := m, lastSize := file.length,
          mtime := m }

/-- `save`: upsert.  A cached identifier is overwritten in place (the code
does not refresh the remembered stat pair there); a new identifier extends
the file by one slot, writes it, inserts the cache entry and refreshes the
stat pair. -/
def fsave (c : FCodec Rec) (r : Rec) (s : FixedRepo) :
    Except RepoErr (Bool × FixedRepo) :=
  match checkAndRefreshCache c s with
  | .error e => .error e
  | .ok s1 =>
    match assocGet s1.idCache (c.rid r) with
    | some idx =>
      .ok (true, { s1 with file := writeBytes s1.file (idx * c.rsize) (c.ser r),
                           mtime := s1.mtime + 1 })
    | none =>
      let off := s1.file.length
      let file' := s1.file ++ c.ser r
      let m' := s1.mtime + 1
      .ok (true, { s1 with file := file', mtime := m',
                           idCache := assocSet s1.idCache (c.rid r) (off / c.rsize),
                           lastMtime := m', lastSize := file'.length })

/-- `findById`: O(1) cache lookup then deserialization of that one slot. -/
def ffindById (c : FCodec Rec) (id : List Char) (s : FixedRepo) :
    Except RepoErr (Option Rec × FixedRepo) :=
  match checkAndRefreshCache c s with
  | .error e => .error e
  | .ok s1 =>
    match assocGet s1.idCache id with
    | none => .ok (none, s1)
    | some idx => .ok (c.deser (readSlot c s1.file idx), s1)

/-- `count`: slot count of the refreshed mapping. -/
def fcount (c : FCodec Rec) (s : FixedRepo) : Except RepoErr (Nat × FixedRepo) :=
  match checkAndRefreshCache c s with
  | .error e => .error e
  | .ok s1 => .ok (slotCount c s1.file, s1)

/-- `existsById`: cache membership after a refresh. -/
def fexistsById (c : FCodec Rec) (id : List Char) (s : FixedRepo) :
    Except RepoErr (Bool × FixedRepo) :=
  match checkAndRefreshCache c s with
  | .error e => .error e
  | .ok s1 => .ok ((assocGet s1.idCache id).isSome, s1)

/-- `deleteById`: a missing identifier is a no-op success; otherwise shift
every later slot down one slot width (`memmove`), truncate one slot width,
and rebuild the cache (a rebuild failure clears the cache but the call
still returns true, as in the source). -/
def fdeleteById (c : FCodec Rec) (id : List Char) (s : FixedRepo) :
    Except RepoErr (Bool × FixedRepo) :=
  match checkAndRefreshCache c s with
  | .error e => .error e
  | .ok s1 =>
    match assocGet s1.idCache id with
    | none => .ok (true, s1)
    | some idx =>
      let cnt := slotCount c s1.file
      let file' := s1.file.take (idx * c.rsize) ++
        (s1.file.drop ((idx + 1) * c.rsize)).take ((cnt - 1 - idx) * c.rsize)
      match rebuildCache c file' with
      | none =>
        .ok (true, { s1 with file := file', mtime := s1.mtime + 1, idCache := [] })
      | some cache =>
        .ok (true, { s1 with file := file', mtime := s1.mtime + 1,
                             idCache := cache })

/-- `deleteAll`: truncate to zero, clear the cache, refresh the stat
pair. -/
def fdeleteAll (_c : FCodec Rec) (s : FixedRepo) : FixedRepo :=
  { s with file := [], idCache := [], mtime := s.mtime + 1,
           lastMtime := s.mtime + 1, lastSize := 0 }

/-- A modification made outside the handle: new bytes and a new mtime; the
handle's cache and remembered stat pair are untouched. -/
def externalSet (s : FixedRepo) (f : List Char) (m : Nat) : FixedRepo :=
  { s with file := f, mtime := m }

/-- The ideal cache for a record list laid out from slot `i` upward. -/
def idealCache (c : FCodec Rec) : List Rec → Nat → List (List Char × Nat)
  | [], _ => []
  | r :: t, i => (c.rid r, i) :: idealCache c t (i + 1)

/-- The in-sync handle whose file holds exactly `recs`, in order. -/
def repoOf (c : FCodec Rec) (recs : List Rec) (m : Nat) : FixedRepo :=
  { file := (recs.map c.ser).flatten,
    idCache := idealCache c recs 0,
    lastMtime := m,
    lastSize := ((recs.map c.ser).flatten).length,
    mtime := m }

/-- Pairwise-distinct identifiers. -/
def DistinctIds (c : FCodec Rec) (recs : List Rec) : Prop :=
  List.Pairwise (fun a b => c.rid a ≠ c.rid b) recs

/-! ### Slot arithmetic over serialized record lists -/

theorem flatten_ser_length (c : FCodec Rec) (recs : List Rec) :
    ((recs.map c.ser).flatten).length = recs.length * c.rsize := by
  induction recs with
  | nil => simp
  | cons r t ih =>
    simp only [List.map_cons, List.flatten_cons, List.length_append, ih,
      c.ser_len, List.length_cons]
    ring

theorem slotCount_flatten (c : FCodec Rec) (recs : List Rec) :
    slotCount c ((recs.map c.ser).flatten) = recs.length := by
  rw [slotCount, flatten_ser_length]
  exact Nat.mul_div_cancel _ c.rsize_pos

theorem flatten_take (c : FCodec Rec) (recs : List Rec) (i : Nat) :
    ((recs.map c.ser).flatten).take (i * c.rsize) =
      ((recs.take i).map c.ser).flatten := by
  induction recs generalizing i with
  | nil => simp
  | cons r t ih =>
    cases i with
    | zero => simp
    | succ j =>
      simp only [List.map_cons, List.flatten_cons, List.take_succ_cons]
      rw [show (j + 1) * c.rsize = (c.ser r).length + j * c.rsize from by
        rw [c.ser_len]; ring]
      rw [List.take_append, ih]

theorem flatten_drop (c : FCodec Rec) (recs : List Rec) (i : Nat) :
    ((recs.map c.ser).flatten).drop (i * c.rsize) =
      ((recs.drop i).map c.ser).flatten := by
  induction recs generalizing i with
  | nil => simp
  | cons r t ih =>
    cases i with
    | zero => simp
    | succ j =>
      simp only [List.map_cons, List.flatten_cons, List.drop_succ_cons]
      rw [show (j + 1) * c.rsize = (c.ser r).length + j * c.rsize from by
        rw [c.ser_len]; ring]
      rw [List.drop_append, ih]

theorem readSlot_flatten (c : FCodec Rec) (recs : List Rec) (i : Nat)
    (hi : i < recs.length) :
    readSlot c ((recs.map c.ser).flatten) i = c.ser (recs.get ⟨i, hi⟩) := by
  rw [readSlot, flatten_drop]
  obtain ⟨x, rest, hx⟩ : ∃ x rest, recs.drop i = x :: rest := by
    cases hd : recs.drop i with
    | nil =>
      have h1 : recs.length ≤ i := by
        have := congrArg List.length hd
        simp only [List.length_drop, List.length_nil] at this
        omega
      omega
    | cons x rest => exact ⟨x, rest, rfl⟩
  rw [hx]
  have hxval : x = recs.get ⟨i, hi⟩ := by
    have h0 : (recs.drop i)[0]? = some x := by rw [hx]; simp
    rw [List.getElem?_drop] at h0
    have h1 : recs[i + 0]? = some recs[i] := by
      rw [show i + 0 = i from rfl]
      exact List.getElem?_eq_getElem hi
    rw [h1] at h0
    injection h0 with h0
    simp [← h0]
  simp only [List.map_cons, List.flatten_cons]
  rw [show c.rsize = (c.ser x).length + 0 from by simp [c.ser_len],
    List.take_append]
  simp [hxval]

theorem writeBytes_flatten (c : FCodec Rec) (recs : List Rec) (i : Nat)
    (hi : i < recs.length) (r : Rec) :
    writeBytes ((recs.map c.ser).flatten) (i * c.rsize) (c.ser r) =
      ((recs.set i r).map c.ser).flatten := by
  rw [writeBytes, flatten_take, c.ser_len]
  rw [show i * c.rsize + c.rsize = (i + 1) * c.rsize from by ring, flatten_drop]
  have hset : recs.set i r = recs.take i ++ r :: recs.drop (i + 1) := by
    rw [List.set_eq_take_append_cons_drop]
    rw [if_pos hi]
  rw [hset]
  simp

/-- Erasing index `i` is dropping its slot's bytes. -/
theorem eraseIdx_take_drop (recs : List Rec) (i : Nat) (hi : i < recs.length) :
    recs.eraseIdx i = recs.take i ++ recs.drop (i + 1) := by
  induction recs generalizing i with
  | nil => simp at hi
  | cons r t ih =>
    cases i with
    | zero => simp [List.eraseIdx]
    | succ j =>
      simp only [List.eraseIdx, List.take_succ_cons, List.drop_succ_cons,
        List.cons_append, List.cons.injEq, true_and]
      exact ih j (by simpa using hi)

theorem deleteBytes_flatten (c : FCodec Rec) (recs : List Rec) (i : Nat)
    (hi : i < recs.length) :
    ((recs.map c.ser).flatten).take (i * c.rsize) ++
      (((recs.map c.ser).flatten).drop ((i + 1) * c.rsize)).take
        ((slotCount c ((recs.map c.ser).flatten) - 1 - i) * c.rsize) =
      ((recs.eraseIdx i).map c.ser).flatten := by
  rw [flatten_take, flatten_drop, slotCount_flatten]
  have hlen : (((recs.drop (i + 1)).map c.ser).flatten).length =
      (recs.length - 1 - i) * c.rsize := by
    rw [flatten_ser_length, List.length_drop]
    congr 1
    omega
  rw [List.take_of_length_le (le_of_eq hlen), eraseIdx_take_drop recs i hi]
  simp

/-! ### Cache rebuild over serialized record lists -/

theorem assocSet_not_mem (m : List (List Char × Nat)) (k : List Char) (v : Nat)
    (h : ∀ p ∈ m, p.1 ≠ k) : assocSet m k v = m ++ [(k, v)] := by
  rw [assocSet, if_neg]
  simp only [List.any_eq_true, decide_eq_true_eq, not_exists]
  intro p
  simp only [not_and]
  exact h p

theorem rebuildFrom_spec (c : FCodec Rec) (file : List Char) (recs : List Rec)
    (i : Nat) (acc : List (List Char × Nat))
    (hslots : ∀ j (hj : j < recs.length),
      c.deser (readSlot c file (i + j)) = some (recs.get ⟨j, hj⟩))
    (hdisj : ∀ r ∈ recs, ∀ p ∈ acc, p.1 ≠ c.rid r)
    (hpw : DistinctIds c recs) :
    rebuildFrom c file i recs.length acc = some (acc ++ idealCache c recs i) := by
  induction recs generalizing i acc with
  | nil => simp [rebuildFrom, idealCache]
  | cons r t ih =>
    have h0 := hslots 0 (by simp)
    simp only [List.length_cons, rebuildFrom]
    rw [show i + 0 = i from rfl] at h0
    have h0' : c.deser (readSlot c file i) = some r := h0
    rw [h0']
    simp only []
    rw [assocSet_not_mem _ _ _ (fun p hp => hdisj r (by simp) p hp)]
    have hpw' := List.pairwise_cons.mp hpw
    rw [ih (i + 1) (acc ++ [(c.rid r, i)])
      (fun j hj => by
        have := hslots (j + 1) (by simpa using Nat.succ_lt_succ hj)
        rw [show i + (j + 1) = i + 1 + j from by ring] at this
        simpa using this)
      (fun x hx p hp => by
        rcases List.mem_append.mp hp with hp1 | hp1
        · exact hdisj x (List.mem_cons_of_mem _ hx) p hp1
        · simp only [List.mem_singleton] at hp1
          subst hp1
          exact hpw'.1 x hx)
      hpw'.2]
    simp [idealCache]

theorem rebuildCache_flatten (c : FCodec Rec) (recs : List Rec)
    (hpw : DistinctIds c recs) :
    rebuildCache c ((recs.map c.ser).flatten) = some (idealCache c recs 0) := by
  rw [rebuildCache, slotCount_flatten]
  have h := rebuildFrom_spec c ((recs.map c.ser).flatten) recs 0 []
    (fun j hj => by
      rw [show 0 + j = j from by omega, readSlot_flatten c recs j hj,
        c.deser_ser])
    (by simp)
    hpw
  simpa using h

theorem assocGet_idealCache (c : FCodec Rec) (recs : List Rec) (k i : Nat)
    (hi : i < recs.length) (hpw : DistinctIds c recs) :
    assocGet (idealCache c recs k) (c.rid (recs.get ⟨i, hi⟩)) = some (k + i) := by
  induction recs generalizing k i with
  | nil => simp at hi
  | cons r t ih =>
    have hpw' := List.pairwise_cons.mp hpw
    cases i with
    | zero =>
      simp only [idealCache, assocGet, List.get]
      rw [List.find?_cons_of_pos _ (by simp)]
      simp
    | succ j =>
      have hj : j < t.length := by simpa using hi
      simp only [idealCache, assocGet, List.get]
      rw [List.find?_cons_of_neg _ (by
        simp only [decide_eq_true_eq]
        exact hpw'.1 _ (List.get_mem t j hj))]
      have := ih (k + 1) j hj hpw'.2
      rw [assocGet] at this
      rw [this]
      congr 1
      omega

/-! ### Refresh and operation lemmas for the fixed store -/

theorem refresh_fresh (c : FCodec Rec) (s : FixedRepo)
    (h1 : s.mtime = s.lastMtime) (h2 : s.file.length = s.lastSize) :
    checkAndRefreshCache c s = .ok s := by
  rw [checkAndRefreshCache, if_neg (by simp [h1, h2])]

theorem refresh_stale (c : FCodec Rec) (recs : List Rec) (s : FixedRepo)
    (hfile : s.file = (recs.map c.ser).flatten) (hpw : DistinctIds c recs)
    (hst : s.mtime ≠ s.lastMtime ∨ s.file.length ≠ s.lastSize) :
    checkAndRefreshCache c s =
      .ok { s with idCache := idealCache c recs 0, lastMtime := s.mtime,
                   lastSize := s.file.length } := by
  rw [checkAndRefreshCache, if_pos hst, if_neg (by
    rw [hfile, flatten_ser_length]
    simp [Nat.mul_mod_left])]
  rw [hfile, rebuildCache_flatten c recs hpw]

/-- States from which every read sees exactly `recs`: the file serializes
`recs` and the handle is either in sync with the ideal cache or stale (in
which case the refresh rebuilds exactly the ideal cache). -/
def GoodState (c : FCodec Rec) (recs : List Rec) (s : FixedRepo) : Prop :=
  s.file = (recs.map c.ser).flatten ∧
  ((s.lastMtime = s.mtime ∧ s.lastSize = s.file.length ∧
      s.idCache = idealCache c recs 0) ∨
    (s.mtime ≠ s.lastMtime ∨ s.file.length ≠ s.lastSize))

theorem refresh_good (c : FCodec Rec) (recs : List Rec) (s : FixedRepo)
    (hpw : DistinctIds c recs) (h : GoodState c recs s) :
    ∃ s1, checkAndRefreshCache c s = .ok s1 ∧
      s1.file = s.file ∧ s1.idCache = idealCache c recs 0 ∧
      s1.mtime = s.mtime ∧ s1.lastMtime = s.mtime ∧
      s1.lastSize = s.file.length := by
  rcases h.2 with ⟨h1, h2, h3⟩ | hst
  · exact ⟨s, refresh_fresh c s h1.symm h2.symm, rfl, h3, rfl, h1, h2⟩
  · exact ⟨_, refresh_stale c recs s h.1 hpw hst, rfl, rfl, rfl, rfl, rfl⟩

theorem fcount_good (c : FCodec Rec) (recs : List Rec) (s : FixedRepo)
    (hpw : DistinctIds c recs) (h : GoodState c recs s) :
    (fcount c s).map Prod.fst = .ok recs.length := by
  obtain ⟨s1, hr, hf, _, _, _, _⟩ := refresh_good c recs s hpw h
  rw [fcount, hr]
  simp only [Except.map]
  rw [hf, h.1, slotCount_flatten]

theorem ffindById_good (c : FCodec Rec) (recs : List Rec) (s : FixedRepo)
    (i : Nat) (hi : i < recs.length)
    (hpw : DistinctIds c recs) (h : GoodState c recs s) :
    (ffindById c (c.rid (recs.get ⟨i, hi⟩)) s).map Prod.fst =
      .ok (some (recs.get ⟨i, hi⟩)) := by
  obtain ⟨s1, hr, hf, hc, _, _, _⟩ := refresh_good c recs s hpw h
  rw [ffindById, hr]
  simp only []
  rw [hc, assocGet_idealCache c recs 0 i hi hpw]
  simp only [Nat.zero_add]
  rw [hf, h.1, readSlot_flatten c recs i hi, c.deser_ser]
  rfl

theorem fexistsById_good (c : FCodec Rec) (recs : List Rec) (s : FixedRepo)
    (i : Nat) (hi : i < recs.length)
    (hpw : DistinctIds c recs) (h : GoodState c recs s) :
    (fexistsById c (c.rid (recs.get ⟨i, hi⟩)) s).map Prod.fst = .ok true := by
  obtain ⟨s1, hr, _, hc, _, _, _⟩ := refresh_good c recs s hpw h
  rw [fexistsById, hr]
  simp only []
  rw [hc, assocGet_idealCache c recs 0 i hi hpw]
  rfl

theorem distinct_set (c : FCodec Rec) (recs : List Rec) (i : Nat)
    (hi : i < recs.length) (r : Rec)
    (hid : c.rid r = c.rid (recs.get ⟨i, hi⟩)) (hpw : DistinctIds c recs) :
    DistinctIds c (recs.set i r) := by
  induction recs generalizing i with
  | nil => simp at hi
  | cons x t ih =>
    have hpw' := List.pairwise_cons.mp hpw
    cases i with
    | zero =>
      have hidx : c.rid r = c.rid x := hid
      rw [List.set_cons_zero]
      exact List.pairwise_cons.mpr
        ⟨fun y hy => hidx ▸ hpw'.1 y hy, hpw'.2⟩
    | succ j =>
      have hj : j < t.length := by simpa using hi
      rw [List.set_cons_succ]
      refine List.pairwise_cons.mpr ⟨?_, ih j hj hid hpw'.2⟩
      intro y hy
      rcases List.mem_or_eq_of_mem_set hy with hy1 | hy1
      · exact hpw'.1 y hy1
      · subst hy1
        rw [hid]
        exact hpw'.1 _ (List.get_mem t j hj)

/-! ### The alignment invariant of the fixed store -/

/-- The fixed store's structural invariant: the file size is a whole
multiple of the slot width, and every cached slot index lies inside the
file. -/
def InvF (c : FCodec Rec) (s : FixedRepo) : Prop :=
  s.file.length % c.rsize = 0 ∧
  ∀ p ∈ s.idCache, (p.2 + 1) * c.rsize ≤ s.file.length

theorem mem_assocSet (m : List (List Char × Nat)) (k : List Char) (v : Nat)
    (p : List Char × Nat) (hp : p ∈ assocSet m k v) : p ∈ m ∨ p.2 = v := by
  rw [assocSet] at hp
  split at hp
  · rcases List.mem_map.mp hp with ⟨q, hq, hqe⟩
    split at hqe
    · right
      rw [← hqe]
    · left
      rw [← hqe]
      exact hq
  · rcases List.mem_append.mp hp with h | h
    · exact Or.inl h
    · simp only [List.mem_singleton] at h
      subst h
      exact Or.inr rfl

theorem rebuildFrom_bounds (c : FCodec Rec) (file : List Char) (i k : Nat)
    (acc res : List (List Char × Nat))
    (hacc : ∀ p ∈ acc, p.2 < i)
    (h : rebuildFrom c file i k acc = some res) :
    ∀ p ∈ res, p.2 < i + k := by
  induction k generalizing i acc with
  | zero =>
    simp only [rebuildFrom] at h
    injection h with h
    subst h
    exact fun p hp => Nat.lt_of_lt_of_le (hacc p hp) (by omega)
  | succ k ih =>
    simp only [rebuildFrom] at h
    cases hd : c.deser (readSlot c file i) with
    | none => rw [hd] at h; exact absurd h (by simp)
    | some rec =>
      rw [hd] at h
      simp only [] at h
      have := ih (i + 1) (assocSet acc (c.rid rec) i)
        (fun p hp => by
          rcases mem_assocSet _ _ _ p hp with h1 | h1
          · exact Nat.lt_succ_of_lt (hacc p h1)
          · omega)
        h
      intro p hp
      have := this p hp
      omega

theorem rebuildCache_bounds (c : FCodec Rec) (file : List Char)
    (res : List (List Char × Nat)) (h : rebuildCache c file = some res) :
    ∀ p ∈ res, (p.2 + 1) * c.rsize ≤ file.length := by
  intro p hp
  have hb := rebuildFrom_bounds c file 0 (slotCount c file) [] res (by simp) h p hp
  rw [Nat.zero_add] at hb
  have h1 : (p.2 + 1) * c.rsize ≤ slotCount c file * c.rsize :=
    Nat.mul_le_mul_right _ hb
  calc (p.2 + 1) * c.rsize ≤ slotCount c file * c.rsize := h1
    _ ≤ file.length := by
      rw [slotCount]
      exact Nat.div_mul_le_self _ _

theorem refresh_inv (c : FCodec Rec) (s s1 : FixedRepo) (hs : InvF c s)
    (h : checkAndRefreshCache c s = .ok s1) : InvF c s1 ∧ s1.file = s.file := by
  rw [checkAndRefreshCache] at h
  split at h
  · rename_i hch
    split at h
    · exact absurd h (by simp)
    · rename_i hal
      cases hr : rebuildCache c s.file with
      | none => rw [hr] at h; exact absurd h (by simp)
      | some cache =>
        rw [hr] at h
        simp only [] at h
        injection h with h
        subst h
        refine ⟨⟨?_, ?_⟩, rfl⟩
        · rcases Nat.eq_zero_or_pos s.file.length with h0 | h0
          · simp [h0]
          · by_contra hmod
            exact hal ⟨h0, hmod⟩
        · exact rebuildCache_bounds c s.file cache hr
  · injection h with h
    subst h
    exact ⟨hs, rfl⟩

theorem assocGet_bound (m : List (List Char × Nat)) (k : List Char) (idx : Nat)
    (h : assocGet m k = some idx) : ∃ p ∈ m, p.2 = idx := by
  rw [assocGet] at h
  cases hf : m.find? (fun p => p.1 = k) with
  | none => rw [hf] at h; exact absurd h (by simp)
  | some p =>
    rw [hf] at h
    injection h with h
    exact ⟨p, List.mem_of_find?_eq_some hf, h⟩

theorem writeBytes_length (file : List Char) (off : Nat) (bytes : List Char)
    (h : off + bytes.length ≤ file.length) :
    (writeBytes file off bytes).length = file.length := by
  simp only [writeBytes, List.length_append, List.length_take, List.length_drop]
  omega

theorem fsave_inv (c : FCodec Rec) (r : Rec) (s : FixedRepo) (b : Bool)
    (s' : FixedRepo) (hs : InvF c s) (h : fsave c r s = .ok (b, s')) :
    InvF c s' := by
  rw [fsave] at h
  cases hr : checkAndRefreshCache c s with
  | error e => rw [hr] at h; exact absurd h (by simp)
  | ok s1 =>
    rw [hr] at h
    simp only [] at h
    obtain ⟨hI1, hfeq⟩ := refresh_inv c s s1 hs hr
    cases hg : assocGet s1.idCache (c.rid r) with
    | some idx =>
      rw [hg] at h
      simp only [] at h
      injection h with h
      injection h with hb hsv
      subst hsv
      obtain ⟨p, hp, hpidx⟩ := assocGet_bound _ _ _ hg
      have hbound : (idx + 1) * c.rsize ≤ s1.file.length := hpidx ▸ hI1.2 p hp
      have hwl : (writeBytes s1.file (idx * c.rsize) (c.ser r)).length =
          s1.file.length := by
        apply writeBytes_length
        rw [c.ser_len]
        calc idx * c.rsize + c.rsize = (idx + 1) * c.rsize := by ring
          _ ≤ s1.file.length := hbound
      exact ⟨by simp only [hwl]; exact hI1.1,
        fun p hp => by simp only [hwl]; exact hI1.2 p hp⟩
    | none =>
      rw [hg] at h
      simp only [] at h
      injection h with h
      injection h with hb hsv
      subst hsv
      constructor
      · simp only [List.length_append, c.ser_len]
        rw [Nat.add_mod, hI1.1, Nat.mod_self]
        simp
      · intro p hp
        simp only [List.length_append, c.ser_len]
        rcases mem_assocSet _ _ _ p hp with h1 | h1
        · have := hI1.2 p h1
          omega
        · rw [h1]
          have hdvd : s1.file.length / c.rsize * c.rsize = s1.file.length :=
            Nat.div_mul_cancel (Nat.dvd_of_mod_eq_zero hI1.1)

          calc (s1.file.length / c.rsize + 1) * c.rsize =
              s1.file.length / c.rsize * c.rsize + c.rsize := by ring
            _ = s1.file.length + c.rsize := by rw [hdvd]
            _ ≤ s1.file.length + c.rsize := le_refl _

theorem fdeleteById_inv (c : FCodec Rec) (id : List Char) (s : FixedRepo)
    (b : Bool) (s' : FixedRepo) (hs : InvF c s)
    (h : fdeleteById c id s = .ok (b, s')) : InvF c s' := by
  rw [fdeleteById] at h
  cases hr : checkAndRefreshCache c s with
  | error e => rw [hr] at h; exact absurd h (by simp)
  | ok s1 =>
    rw [hr] at h
    simp only [] at h
    obtain ⟨hI1, _⟩ := refresh_inv c s s1 hs hr
    cases hg : assocGet s1.idCache id with
    | none =>
      rw [hg] at h
      simp only [] at h
      injection h with h
      injection h with _ hsv
      subst hsv
      exact hI1
    | some idx =>
      rw [hg] at h
      simp only [] at h
      obtain ⟨p, hp, hpidx⟩ := assocGet_bound _ _ _ hg
      have hbound : (idx + 1) * c.rsize ≤ s1.file.length := hpidx ▸ hI1.2 p hp
      have hdvd : slotCount c s1.file * c.rsize = s1.file.length :=
        Nat.div_mul_cancel (Nat.dvd_of_mod_eq_zero hI1.1)
      have hidxlt : idx + 1 ≤ slotCount c s1.file := by
        by_contra hc
        push_neg at hc
        have h1 : slotCount c s1.file * c.rsize < (idx + 1) * c.rsize :=
          (Nat.mul_lt_mul_right c.rsize_pos).mpr hc
        omega
      have hflen : (s1.file.take (idx * c.rsize) ++
          (s1.file.drop ((idx + 1) * c.rsize)).take
            ((slotCount c s1.file - 1 - idx) * c.rsize)).length =
          (slotCount c s1.file - 1) * c.rsize := by
        simp only [List.length_append, List.length_take, List.length_drop]
        have e1 : (idx + 1) * c.rsize = idx * c.rsize + c.rsize := by ring
        have e2 : (slotCount c s1.file - 1 - idx) * c.rsize =
            slotCount c s1.file * c.rsize - c.rsize - idx * c.rsize := by
          rw [Nat.sub_mul, Nat.sub_mul, Nat.one_mul]
        have e3 : (slotCount c s1.file - 1) * c.rsize =
            slotCount c s1.file * c.rsize - c.rsize := by
          rw [Nat.sub_mul, Nat.one_mul]
        omega
      have halign : ((slotCount c s1.file - 1) * c.rsize) % c.rsize = 0 :=
        Nat.mul_mod_left _ _
      cases hrb : rebuildCache c (s1.file.take (idx * c.rsize) ++
          (s1.file.drop ((idx + 1) * c.rsize)).take
            ((slotCount c s1.file - 1 - idx) * c.rsize)) with
      | none =>
        rw [hrb] at h
        simp only [] at h
        injection h with h
        injection h with _ hsv
        subst hsv
        exact ⟨by simp [hflen, halign], by simp⟩
      | some cache =>
        rw [hrb] at h
        simp only [] at h
        injection h with h
        injection h with _ hsv
        subst hsv
        refine ⟨by simp [hflen, halign], ?_⟩
        intro q hq
        have := rebuildCache_bounds c _ cache hrb q hq
        exact this

theorem refresh_corrupt (c : FCodec Rec) (s : FixedRepo)
    (hch : s.mtime ≠ s.lastMtime ∨ s.file.length ≠ s.lastSize)
    (hpos : 0 < s.file.length) (hmod : s.file.length % c.rsize ≠ 0) :
    checkAndRefreshCache c s = .error .corruptStore := by
  rw [checkAndRefreshCache, if_pos hch, if_pos ⟨hpos, hmod⟩]

theorem mem_eraseIdx_of_ne (recs : List Rec) (i j : Nat) (hi : i < recs.length)
    (hj : j < recs.length) (hne : j ≠ i) :
    recs.get ⟨j, hj⟩ ∈ recs.eraseIdx i := by
  rw [eraseIdx_take_drop recs i hi]
  show recs[j] ∈ recs.take i ++ recs.drop (i + 1)
  rcases Nat.lt_or_ge j i with h | h
  · apply List.mem_append_left
    have hlt : j < (recs.take i).length := by
      simp only [List.length_take]
      omega
    have he : (recs.take i)[j] = recs[j] := List.getElem_take recs
    exact he ▸ List.getElem_mem hlt
  · have hgt : i < j := by omega
    apply List.mem_append_right
    have hlt : j - (i + 1) < (recs.drop (i + 1)).length := by
      simp only [List.length_drop]
      omega
    have hmem := List.getElem_mem (l := recs.drop (i + 1)) hlt
    have he : (recs.drop (i + 1))[j - (i + 1)] = recs[(i + 1) + (j - (i + 1))] :=
      List.getElem_drop recs
    rw [he] at hmem
    have h2 : recs[(i + 1) + (j - (i + 1))] = recs[j] := by
      congr 1
      omega
    rwa [h2] at hmem

theorem ffindById_good_mem (c : FCodec Rec) (recs : List Rec) (s : FixedRepo)
    (x : Rec) (hx : x ∈ recs) (hpw : DistinctIds c recs)
    (h : GoodState c recs s) :
    (ffindById c (c.rid x) s).map Prod.fst = .ok (some x) := by
  obtain ⟨⟨i, hi⟩, hget⟩ := List.mem_iff_get.mp hx
  rw [← hget]
  exact ffindById_good c recs s i hi hpw h

/-! ### Line-Rewrite Store cache rebuild (`VariableFileRepositoryImpl.cpp`)

`loadAllToCache` reads the file in chunks, splits on newlines via
`std::getline`, and keeps an unterminated trailing fragment in `leftover`.
The fragment is never parsed after the read loop ends, so only
newline-terminated lines contribute records.  Each complete line is skipped
if empty; otherwise it is parsed, its type looked up in the prototype
registry, and decoded via `fromKv`; any failure silently skips the line. -/

/-- Split a byte stream into the newline-terminated lines (without their
newlines) and the unterminated trailing fragment, exactly as the chunked
`getline` loop does. -/
def splitNl : List Char → List (List Char) × Option (List Char)
  | [] => ([], none)
  | c :: rest =>
    match splitNl rest with
    | (ls, frag) =>
      if c = '\n' then ([] :: ls, frag)
      else
        match ls with
        | l :: ls' => ((c :: l) :: ls', frag)
        | [] =>
          match frag with
          | some f => ([], some (c :: f))
          | none => ([], some [c])

/-- A prototype registry: type name to `fromKv` decoder (the clone of the
registered blank instance followed by `fromKv`). -/
abbrev VRegistry (Rec : Type) := List (List Char × (List TPair → Option Rec))

/-- Decode one complete line: `parseLine`, registry lookup of the type
name, then `fromKv`; `none` means the line is skipped. -/
def decodeLineV (protos : VRegistry Rec) (line : List Char) : Option Rec :=
  match parseLine line with
  | none => none
  | some (type, kv) =>
    match protos.find? (fun p => p.1 = type) with
    | none => none
    | some proto => proto.2 kv

/-- The per-line processing of the `getline` loop: empty lines are skipped
before parsing, bad lines are skipped by `decodeLineV`. -/
def processLines (protos : VRegistry Rec) (lines : List (List Char)) : List Rec :=
  lines.filterMap (fun l => if l.isEmpty then none else decodeLineV protos l)

/-- The cache contents `loadAllToCache` builds from the file bytes: only
the newline-terminated lines are processed; the trailing fragment is
dropped. -/
def loadRecords (protos : VRegistry Rec) (bytes : List Char) : List Rec :=
  processLines protos (splitNl bytes).1

/-- One outcome of a `read` call in the `loadAllToCache` loop: a chunk of
`n > 0` bytes, end of file (`n = 0`), or a read error (`n < 0`). -/
inductive RdRes where
  | chunk (bytes : List Char)
  | eofHit
  | readErr
deriving DecidableEq, Repr

/-- The bytes gathered by the `while ((n = read(...)) > 0)` loop:
concatenate chunks until the first `read` that returns `0` or a negative
value.  The loop condition cannot tell the two apart, so a read error ends
the scan exactly like end of file, keeping the bytes already read. -/
def readLoop : List RdRes → List Char
  | [] => []
  | .chunk b :: t => b ++ readLoop t
  | .eofHit :: _ => []
  | .readErr :: _ => []

/-- `loadAllToCache`: the initial `lseek(SEEK_SET)` failure is the
function's only error return.  Whenever that `lseek` succeeds, the cache
is rebuilt from the bytes the read loop produced, `cacheValid_` is set,
and the call succeeds — also when the loop was ended by a failing `read`,
in which case the cache holds only the records of the chunks read before
the failure. -/
def loadAllToCacheModel (protos : VRegistry Rec) (lseekOk : Bool) (e : Nat)
    (script : List RdRes) : Except Nat (List Rec) :=
  if lseekOk then .ok (loadRecords protos (readLoop script))
  else .error e

theorem splitNl_no_nl (frag : List Char) (hf : '\n' ∉ frag) :
    splitNl frag = ([], if frag = [] then none else some frag) := by
  induction frag with
  | nil => simp [splitNl]
  | cons c rest ih =>
    have hc : ¬ c = '\n' := fun h => hf (by simp [h])
    have hrest : '\n' ∉ rest := fun h => hf (by simp [h])
    rw [splitNl, ih hrest]
    by_cases hr : rest = []
    · subst hr
      simp [hc]
    · simp [hc, hr]

/-- Appending a newline-free fragment does not change the complete-line
list: the unterminated tail only grows the dropped fragment. -/
theorem splitNl_app_frag (b frag : List Char) (hf : '\n' ∉ frag) :
    (splitNl (b ++ frag)).1 = (splitNl b).1 := by
  induction b with
  | nil =>
    simp only [List.nil_append]
    rw [splitNl_no_nl frag hf]
    simp [splitNl]
  | cons c rest ih =>
    rw [List.cons_append, splitNl, splitNl]
    cases hsp : splitNl (rest ++ frag) with
    | mk ls1 f1 =>
      cases hsp2 : splitNl rest with
      | mk ls2 f2 =>
        rw [hsp, hsp2] at ih
        simp only at ih
        rw [← ih]
        by_cases hc : c = '\n'
        · simp [hc]
        · cases ls1 with
          | nil =>
            cases f1 <;> cases f2 <;> simp [hc]
          | cons l ls' => simp [hc]

/-! ### A concrete variable-length record type (`examples/records/A.hpp`)

Record `A` has a string field `name` and a numeric field `id` (also its
identifier); `fromKv` requires both keys and parses the id with
`parseLongStrict`. -/

/-- `util::parseLongStrict`: `std::stoll` that must consume the whole
string, plus the `long` range check. -/
def parseLongStrict (s : List Char) : Option Int :=
  match s.dropWhile isSpaceC with
  | [] => none
  | c :: r =>
    let neg := c = '-'
    let hasSign := c = '-' ∨ c = '+'
    let body := if hasSign then r else c :: r
    let ds := body.takeWhile isDigitC
    if ds = [] then none
    else if body.dropWhile isDigitC ≠ [] then none
    else
      let v : Int := if neg then -(digitsToNat ds : Int) else (digitsToNat ds : Int)
      if v < INT64_MIN ∨ INT64_MAX < v then none else some v

/-- Minimal decimal digits of `n` (helper for `std::to_string`). -/
def natToDigitsAux : Nat → Nat → List Char
  | 0, _ => []
  | fuel + 1, n => if n = 0 then [] else natToDigitsAux fuel (n / 10) ++ [natDigit n]

/-- `std::to_string` for a nonnegative value. -/
def natToDigits (n : Nat) : List Char :=
  if n = 0 then ['0'] else natToDigitsAux (n + 1) n

/-- `std::to_string(long)`. -/
def intToDecimal (v : Int) : List Char :=
  if v < 0 then '-' :: natToDigits (-v).toNat else natToDigits v.toNat

/-- The record type of `examples/records/A.hpp`. -/
structure RecA where
  name : List Char
  userId : Int
deriving DecidableEq, Repr

/-- `A::fromKv`: both keys required, id parsed strictly. -/
def RecA.fromKv (kv : List TPair) : Option RecA :=
  match kv.find? (fun p => p.1 = ['n', 'a', 'm', 'e']),
        kv.find? (fun p => p.1 = ['i', 'd']) with
  | some n, some i =>
    match parseLongStrict i.2.2 with
    | some v => some ⟨n.2.2, v⟩
    | none => none
  | _, _ => none

/-- `A::toKv`: name as a string value, id as a numeric value. -/
def RecA.toKv (r : RecA) : List TPair :=
  [(['n', 'a', 'm', 'e'], true, r.name), (['i', 'd'], false, intToDecimal r.userId)]

/-- `A::id()`: the numeric id as a string. -/
def RecA.rid (r : RecA) : List Char := intToDecimal r.userId

/-- A prototype registry holding only type `A`. -/
def protosA : VRegistry RecA := [(['A'], RecA.fromKv)]

/-! ### Line-Rewrite Store operations (`VariableFileRepositoryImpl.cpp`)

The store is parametrised over its virtual record interface (`id()`,
`typeName()`, `toKv`) and the prototype registry; lines are produced by the
concrete `util::formatLine` and read back through `loadAllToCache`. -/

/-- The virtual interface of `VariableRecordBase` plus the registry the
repository was constructed with. -/
structure VRecOps (Rec : Type) where
  rid : Rec → List Char
  typeName : Rec → List Char
  toKv : Rec → List TPair
  protos : VRegistry Rec

/-- The line `appendRecord`/`rewriteAll` write for a record
(`util::formatLine`, newline included). -/
def encodeLine (ops : VRecOps Rec) (r : Rec) : List Char :=
  formatLine (ops.typeName r) (ops.toKv r)

/-- The same line without its terminating newline (what `getline` hands to
`parseLine`). -/
def lineBody (ops : VRecOps Rec) (r : Rec) : List Char :=
  ops.typeName r ++ ' ' :: '\x7b' :: ' ' :: (fmtPairs (ops.toKv r) ++ [' ', '\x7d'])

theorem encodeLine_eq (ops : VRecOps Rec) (r : Rec) :
    encodeLine ops r = lineBody ops r ++ ['\n'] := by
  simp [encodeLine, formatLine, lineBody]

/-- Handle state of the variable repository. -/
structure VarRepo (Rec : Type) where
  file : List Char
  cache : List Rec
  cacheValid : Bool
  lastMtime : Nat
  lastSize : Nat
  mtime : Nat

/-- `checkAndRefreshCache`: discard the cache when the `(mtime, size)` pair
changed, then reload it from the file if it is invalid. -/
def vcheckAndRefresh (ops : VRecOps Rec) (s : VarRepo Rec) : VarRepo Rec :=
  let s1 :=
    if s.mtime ≠ s.lastMtime ∨ s.file.length ≠ s.lastSize then
      { s with cache := [], cacheValid := false,
               lastMtime := s.mtime, lastSize := s.file.length }
    else s
  if s1.cacheValid then s1
  else { s1 with cache := loadRecords ops.protos s1.file, cacheValid := true }

/-- `invalidateCache`. -/
def vinvalidate (s : VarRepo Rec) : VarRepo Rec :=
  { s with cache := [], cacheValid := false }

/-- `appendRecord` followed by `sync` (which refreshes the stat pair). -/
def vappendRecord (ops : VRecOps Rec) (r : Rec) (s : VarRepo Rec) : VarRepo Rec :=
  { s with file := s.file ++ encodeLine ops r, mtime := s.mtime + 1,
           lastMtime := s.mtime + 1, lastSize := (s.file ++ encodeLine ops r).length }

/-- `rewriteAll` followed by `sync`. -/
def vrewriteAll (ops : VRecOps Rec) (records : List Rec) (s : VarRepo Rec) :
    VarRepo Rec :=
  { s with file := (records.map (encodeLine ops)).flatten, mtime := s.mtime + 1,
           lastMtime := s.mtime + 1,
           lastSize := ((records.map (encodeLine ops)).flatten).length }

/-- Replace the first record matching `p` (the `save` update loop with its
`break`). -/
def replaceFirst (p : Rec → Bool) (r : Rec) : List Rec → List Rec
  | [] => []
  | x :: t => if p x then r :: t else x :: replaceFirst p r t

/-- `existsById`: refresh, then scan the cache. -/
def vexistsById (ops : VRecOps Rec) (id : List Char) (s : VarRepo Rec) :
    Bool × VarRepo Rec :=
  let s1 := vcheckAndRefresh ops s
  (s1.cache.any (fun r => ops.rid r = id), s1)

/-- `findAll`: refresh, then clone the cache. -/
def vfindAll (ops : VRecOps Rec) (s : VarRepo Rec) : List Rec × VarRepo Rec :=
  let s1 := vcheckAndRefresh ops s
  (s1.cache, s1)

/-- `findById`: refresh, then first cache entry with the identifier. -/
def vfindById (ops : VRecOps Rec) (id : List Char) (s : VarRepo Rec) :
    Option Rec × VarRepo Rec :=
  let s1 := vcheckAndRefresh ops s
  (s1.cache.find? (fun r => ops.rid r = id), s1)

/-- `count`: refresh, then cache size. -/
def vcount (ops : VRecOps Rec) (s : VarRepo Rec) : Nat × VarRepo Rec :=
  let s1 := vcheckAndRefresh ops s
  (s1.cache.length, s1)

/-- `save`: upsert.  An existing identifier replaces the matching record in
the full record set and rewrites the whole file; a new identifier is
appended as one line.  Both paths invalidate the cache first. -/
def vsave (ops : VRecOps Rec) (r : Rec) (s : VarRepo Rec) : Bool × VarRepo Rec :=
  let s1 := vcheckAndRefresh ops s
  let ex := vexistsById ops (ops.rid r) s1
  if ex.1 then
    let fa := vfindAll ops ex.2
    (true, vrewriteAll ops
      (replaceFirst (fun x => ops.rid x = ops.rid r) r fa.1) (vinvalidate fa.2))
  else
    (true, vappendRecord ops r (vinvalidate ex.2))

/-- The in-sync handle whose file and cache hold exactly `recs`. -/
def varRepoOf (ops : VRecOps Rec) (recs : List Rec) (m : Nat) : VarRepo Rec :=
  { file := (recs.map (encodeLine ops)).flatten, cache := recs,
    cacheValid := true, lastMtime := m,
    lastSize := ((recs.map (encodeLine ops)).flatten).length, mtime := m }

/-- A record the store can round-trip through its own file format: its line
body holds no newline and decodes back to the record. -/
def VGood (ops : VRecOps Rec) (r : Rec) : Prop :=
  '\n' ∉ lineBody ops r ∧
  decodeLineV ops.protos (lineBody ops r) = some r

/-- The `A` example record wired into the Line-Rewrite Store interface. -/
def opsA : VRecOps RecA :=
  { rid := RecA.rid, typeName := fun _ => ['A'], toKv := RecA.toKv,
    protos := protosA }

theorem decodeLineV_nil (protos : VRegistry Rec) : decodeLineV protos [] = none := rfl

/-- A newline-terminated line contributes itself, whole, to the
complete-line list. -/
theorem splitNl_terminated (body rest : List Char) (hb : '\n' ∉ body) :
    splitNl ((body ++ ['\n']) ++ rest) =
      (body :: (splitNl rest).1, (splitNl rest).2) := by
  induction body with
  | nil => simp [splitNl]
  | cons c b ih =>
    have hc : ¬ c = '\n' := fun h => hb (by simp [h])
    have hb' : '\n' ∉ b := fun h => hb (by simp [h])
    rw [List.cons_append, List.cons_append, splitNl, ih hb']
    simp [hc]

/-- The per-line loop maps a list of round-trippable line bodies back to
their records. -/
theorem processLines_bodies (ops : VRecOps Rec) :
    ∀ (recs : List Rec), (∀ r ∈ recs, VGood ops r) →
      processLines ops.protos (recs.map (lineBody ops)) = recs
  | [], _ => rfl
  | r :: t, hg => by
    have hgr := hg r (by simp)
    have hne : ¬ (lineBody ops r).isEmpty = true := by
      intro h
      rw [List.isEmpty_iff] at h
      have hd := hgr.2
      rw [h, decodeLineV_nil] at hd
      exact Option.noConfusion hd
    have hstep : (if (lineBody ops r).isEmpty then none
        else decodeLineV ops.protos (lineBody ops r)) = some r := by
      rw [if_neg hne, hgr.2]
    have ih := processLines_bodies ops t (fun x hx => hg x (by simp [hx]))
    unfold processLines at ih ⊢
    simp only [List.map_cons, List.filterMap_cons, hstep, ih]

/-- Splitting the concatenation of round-trippable encoded lines recovers
the line bodies. -/
theorem splitNl_flatten (ops : VRecOps Rec) :
    ∀ (recs : List Rec), (∀ r ∈ recs, VGood ops r) →
      (splitNl ((recs.map (encodeLine ops)).flatten)).1 = recs.map (lineBody ops)
  | [], _ => by simp [splitNl]
  | r :: t, hg => by
    have ih := splitNl_flatten ops t (fun x hx => hg x (by simp [hx]))
    simp only [List.map_cons, List.flatten_cons, encodeLine_eq, List.append_assoc]
    rw [← List.append_assoc, splitNl_terminated _ _ (hg r (by simp)).1]
    simp only []
    rw [ih]

/-- The cache rebuilt from the file written for `recs` is `recs` itself,
when every record round-trips through the line format. -/
theorem loadRecords_flatten (ops : VRecOps Rec) (recs : List Rec)
    (hg : ∀ r ∈ recs, VGood ops r) :
    loadRecords ops.protos ((recs.map (encodeLine ops)).flatten) = recs := by
  rw [loadRecords, splitNl_flatten ops recs hg]
  exact processLines_bodies ops recs hg

theorem length_replaceFirst (p : Rec → Bool) (r : Rec) :
    ∀ l : List Rec, (replaceFirst p r l).length = l.length
  | [] => rfl
  | x :: t => by
    rw [replaceFirst]
    by_cases hp : p x
    · simp [hp]
    · simp [hp, length_replaceFirst p r t]

theorem find?_replaceFirst (p : Rec → Bool) (r : Rec) (hr : p r = true) :
    ∀ l : List Rec, l.any p = true → (replaceFirst p r l).find? p = some r
  | [], hl => by simp at hl
  | x :: t, hl => by
    rw [replaceFirst]
    by_cases hp : p x
    · rw [if_pos hp]
      exact List.find?_cons_of_pos _ hr
    · rw [if_neg hp]
      have ht : t.any p = true := by
        rcases List.any_eq_true.mp hl with ⟨y, hy, hpy⟩
        rcases List.mem_cons.mp hy with h1 | h2
        · exact absurd (h1 ▸ hpy) hp
        · exact List.any_eq_true.mpr ⟨y, h2, hpy⟩
      rw [List.find?_cons_of_neg _ hp]
      exact find?_replaceFirst p r hr t ht

theorem mem_replaceFirst (p : Rec → Bool) (r x : Rec) :
    ∀ l : List Rec, x ∈ replaceFirst p r l → x = r ∨ x ∈ l
  | [], h => by rw [replaceFirst] at h; exact absurd h (List.not_mem_nil x)
  | y :: t, h => by
    rw [replaceFirst] at h
    by_cases hp : p y
    · rw [if_pos hp] at h
      rcases List.mem_cons.mp h with h1 | h2
      · exact Or.inl h1
      · exact Or.inr (List.mem_cons_of_mem _ h2)
    · rw [if_neg hp] at h
      rcases List.mem_cons.mp h with h1 | h2
      · exact Or.inr (h1 ▸ List.mem_cons_self _ _)
      · rcases mem_replaceFirst p r x t h2 with h3 | h4
        · exact Or.inl h3
        · exact Or.inr (List.mem_cons_of_mem _ h4)

/-- A handle whose stat pair matches and whose cache is valid refreshes to
itself. -/
theorem vrefresh_fresh (ops : VRecOps Rec) (s : VarRepo Rec)
    (h1 : s.mtime = s.lastMtime) (h2 : s.file.length = s.lastSize)
    (h3 : s.cacheValid = true) :
    vcheckAndRefresh ops s = s := by
  simp [vcheckAndRefresh, h1, h2, h3]

/-- A handle whose stat pair matches but whose cache is invalid reloads the
cache from its file and changes nothing else. -/
theorem vrefresh_reload (ops : VRecOps Rec) (s : VarRepo Rec)
    (h1 : s.mtime = s.lastMtime) (h2 : s.file.length = s.lastSize)
    (h3 : s.cacheValid = false) :
    vcheckAndRefresh ops s =
      { s with cache := loadRecords ops.protos s.file, cacheValid := true } := by
  simp [vcheckAndRefresh, h1, h2, h3]

/-- The update path of `save` on an in-sync store holding `recs`: an
existing identifier rewrites the file to the record list with the first
match replaced, invalidates the cache, and bumps the stat pair. -/
theorem vsave_update (ops : VRecOps Rec) (recs : List Rec) (m j : Nat)
    (hj : j < recs.length) (r : Rec)
    (hid : ops.rid r = ops.rid (recs.get ⟨j, hj⟩)) :
    vsave ops r (varRepoOf ops recs m) =
      (true,
        { file := ((replaceFirst (fun x => ops.rid x = ops.rid r) r recs).map
            (encodeLine ops)).flatten,
          cache := [], cacheValid := false, lastMtime := m + 1,
          lastSize := (((replaceFirst (fun x => ops.rid x = ops.rid r) r recs).map
            (encodeLine ops)).flatten).length,
          mtime := m + 1 }) := by
  have hs0 : vcheckAndRefresh ops (varRepoOf ops recs m) = varRepoOf ops recs m :=
    vrefresh_fresh ops _ rfl rfl rfl
  have hany : recs.any (fun x => ops.rid x = ops.rid r) = true := by
    rw [List.any_eq_true]
    exact ⟨recs.get ⟨j, hj⟩, List.get_mem recs j hj, by simp [hid]⟩
  rw [vsave]
  simp only [vexistsById, vfindAll, hs0]
  simp only [varRepoOf, hany, if_true]
  simp [vrewriteAll, vinvalidate]

/-- The update path of the Fixed-Slot `save` on an in-sync store holding
`recs`: an existing identifier overwrites that record's slot in place. -/
theorem fsave_upsert (c : FCodec Rec) (recs : List Rec) (m i : Nat)
    (hi : i < recs.length) (r : Rec) (hpw : DistinctIds c recs)
    (hid : c.rid r = c.rid (recs.get ⟨i, hi⟩)) :
    fsave c r (repoOf c recs m) =
      .ok (true, { repoOf c recs m with
        file := ((recs.set i r).map c.ser).flatten, mtime := m + 1 }) := by
  rw [fsave, refresh_fresh c _ rfl rfl]
  have hget : assocGet (repoOf c recs m).idCache (c.rid r) = some (0 + i) := by
    rw [hid]
    exact assocGet_idealCache c recs 0 i hi hpw
  simp only []
  rw [hget]
  simp only []
  have hw : writeBytes (repoOf c recs m).file ((0 + i) * c.rsize) (c.ser r) =
      ((recs.set i r).map c.ser).flatten := by
    rw [Nat.zero_add]
    exact writeBytes_flatten c recs i hi r
  rw [hw]
  rfl

/-- Reads after an updating `save` on the Line-Rewrite Store: the rebuilt
cache is the original record list with the first identifier match replaced,
so the count is unchanged and `findById` returns the new content. -/
theorem vread_after_update (ops : VRecOps Rec) (recs : List Rec) (m j : Nat)
    (hj : j < recs.length) (r : Rec)
    (hg : ∀ x ∈ recs, VGood ops x) (hgr : VGood ops r)
    (hid : ops.rid r = ops.rid (recs.get ⟨j, hj⟩)) :
    (vcount ops (vsave ops r (varRepoOf ops recs m)).2).1 = recs.length ∧
    (vfindById ops (ops.rid r) (vsave ops r (varRepoOf ops recs m)).2).1 =
      some r := by
  have hgall : ∀ x ∈ replaceFirst (fun x => ops.rid x = ops.rid r) r recs,
      VGood ops x := by
    intro x hx
    rcases mem_replaceFirst _ _ _ _ hx with h1 | h2
    · exact h1 ▸ hgr
    · exact hg x h2
  have hload := loadRecords_flatten ops _ hgall
  have hany : recs.any (fun x => ops.rid x = ops.rid r) = true := by
    rw [List.any_eq_true]
    exact ⟨recs.get ⟨j, hj⟩, List.get_mem recs j hj, by simp [hid]⟩
  have hr : (fun x => decide (ops.rid x = ops.rid r)) r = true := by simp
  rw [vsave_update ops recs m j hj r hid]
  simp only [vcount, vfindById]
  rw [vrefresh_reload ops _ rfl rfl rfl]
  simp only []
  rw [hload]
  exact ⟨length_replaceFirst _ r recs,
    find?_replaceFirst _ r hr recs hany⟩

/-- C2: `save` is an upsert in both stores.  Saving a record whose
identifier is already present in an in-sync Fixed-Slot Store succeeds,
leaves the file size (hence the record count) unchanged, and a subsequent
`findById` of that identifier returns the newly saved content; saving a
record whose identifier is already present in an in-sync Line-Rewrite
Store succeeds, leaves `count` unchanged, and a subsequent `findById` of
that identifier returns the newly saved content. -/
theorem claim2_upsert {RecF RecV : Type} (c : FCodec RecF) (recsF : List RecF)
    (mF i : Nat) (hiF : i < recsF.length) (rF : RecF)
    (hpwF : DistinctIds c recsF)
    (hidF : c.rid rF = c.rid (recsF.get ⟨i, hiF⟩))
    (ops : VRecOps RecV) (recsV : List RecV) (mV j : Nat)
    (hjV : j < recsV.length) (rV : RecV)
    (hgV : ∀ x ∈ recsV, VGood ops x) (hgr : VGood ops rV)
    (hidV : ops.rid rV = ops.rid (recsV.get ⟨j, hjV⟩)) :
    (∃ sF, fsave c rF (repoOf c recsF mF) = .ok (true, sF) ∧
       sF.file.length = (repoOf c recsF mF).file.length ∧
       (fcount c sF).map Prod.fst = .ok recsF.length ∧
       (ffindById c (c.rid rF) sF).map Prod.fst = .ok (some rF)) ∧
    ((vsave ops rV (varRepoOf ops recsV mV)).1 = true ∧
     (vcount ops (vsave ops rV (varRepoOf ops recsV mV)).2).1 = recsV.length ∧
     (vfindById ops (ops.rid rV) (vsave ops rV (varRepoOf ops recsV mV)).2).1 =
       some rV) := by
  constructor
  · refine ⟨_, fsave_upsert c recsF mF i hiF rF hpwF hidF, ?_, ?_, ?_⟩
    · show (((recsF.set i rF).map c.ser).flatten).length =
        ((recsF.map c.ser).flatten).length
      rw [flatten_ser_length, flatten_ser_length, List.length_set]
    · have hpw' := distinct_set c recsF i hiF rF hidF hpwF
      have hgd : GoodState c (recsF.set i rF)
          { repoOf c recsF mF with
            file := ((recsF.set i rF).map c.ser).flatten, mtime := mF + 1 } :=
        ⟨rfl, Or.inr (Or.inl (by show mF + 1 ≠ mF; omega))⟩
      have := fcount_good c (recsF.set i rF) _ hpw' hgd
      rwa [List.length_set] at this
    · have hpw' := distinct_set c recsF i hiF rF hidF hpwF
      have hgd : GoodState c (recsF.set i rF)
          { repoOf c recsF mF with
            file := ((recsF.set i rF).map c.ser).flatten, mtime := mF + 1 } :=
        ⟨rfl, Or.inr (Or.inl (by show mF + 1 ≠ mF; omega))⟩
      have hlen : i < (recsF.set i rF).length := by
        rw [List.length_set]; exact hiF
      have hgeti : (recsF.set i rF).get ⟨i, hlen⟩ = rF := by simp
      have hmem : rF ∈ recsF.set i rF :=
        List.mem_iff_get.mpr ⟨⟨i, hlen⟩, hgeti⟩
      exact ffindById_good_mem c (recsF.set i rF) _ rF hmem hpw' hgd
  · obtain ⟨h1, h2⟩ := vread_after_update ops recsV mV j hjV rV hgV hgr hidV
    refine ⟨?_, h1, h2⟩
    rw [vsave_update ops recsV mV j hjV rV hidV]

end FdFileV

namespace FdFileV

/-- A read script of whole chunks ended by a stop outcome (end of file or
read error) yields exactly those chunks' bytes; nothing after the stop is
seen. -/
theorem readLoop_chunks_stop (r : RdRes)
    (hr : r = RdRes.readErr ∨ r = RdRes.eofHit) :
    ∀ (bs : List (List Char)) (tail : List RdRes),
      readLoop (bs.map RdRes.chunk ++ r :: tail) = bs.flatten
  | [], tail => by rcases hr with h | h <;> subst h <;> rfl
  | b :: bs, tail => by
    simp only [List.map_cons, List.cons_append, readLoop, List.flatten_cons,
      List.append_eq]
    rw [readLoop_chunks_stop r hr bs tail]

/-- C9 counterexample: a failing mid-loop `read` is not reported.  With a
working `lseek`, one fully read chunk holding a valid type-`A` line, and
the next `read` call failing, `loadAllToCache` returns success with that
one record — the same result as if the failing `read` had reported end of
file — refuting the claimed "returns an error if and only if reading the
file itself fails". -/
theorem claim9_counterexample :
    loadAllToCacheModel protosA true 7
        [RdRes.chunk "A \x7b \"name\": \"x\", \"id\": 1 \x7d\n".toList,
         RdRes.readErr] =
      .ok [⟨['x'], 1⟩] ∧
    loadAllToCacheModel protosA true 7
        [RdRes.chunk "A \x7b \"name\": \"x\", \"id\": 1 \x7d\n".toList,
         RdRes.readErr] =
      loadAllToCacheModel protosA true 7
        [RdRes.chunk "A \x7b \"name\": \"x\", \"id\": 1 \x7d\n".toList,
         RdRes.eofHit] :=
  ⟨rfl, rfl⟩

/-- C9 (amended): the Line-Rewrite Store's cache rebuild is tolerant — a
line that fails to parse, or names a type absent from the prototype
registry, or fails field decoding, is silently skipped while the remaining
lines still load — and its only error return is the initial `lseek`
failure.  Whenever that `lseek` succeeds the call succeeds, even when the
read loop is ended by a failing `read`: the cache then holds exactly the
records of the chunks read before the failure, indistinguishable from an
end of file at that point. -/
theorem claim9_tolerant_rebuild {Rec : Type} (protos : VRegistry Rec)
    (xs ys : List (List Char)) (bad : List Char)
    (hbad : parseLine bad = none ∨
      (∃ t kv, parseLine bad = some (t, kv) ∧
        protos.find? (fun p => p.1 = t) = none) ∨
      (∃ t kv proto, parseLine bad = some (t, kv) ∧
        protos.find? (fun p => p.1 = t) = some proto ∧ proto.2 kv = none)) :
    processLines protos (xs ++ bad :: ys) = processLines protos (xs ++ ys) ∧
    (∀ (e : Nat) (script : List RdRes),
      loadAllToCacheModel protos false e script = .error e) ∧
    (∀ (e : Nat) (bs : List (List Char)) (tail : List RdRes),
      loadAllToCacheModel protos true e
          (bs.map RdRes.chunk ++ RdRes.readErr :: tail) =
        .ok (loadRecords protos bs.flatten) ∧
      loadAllToCacheModel protos true e
          (bs.map RdRes.chunk ++ RdRes.readErr :: tail) =
        loadAllToCacheModel protos true e
          (bs.map RdRes.chunk ++ RdRes.eofHit :: tail)) := by
  refine ⟨?_, ?_, ?_⟩
  · have hdec : decodeLineV protos bad = none := by
      rcases hbad with h | ⟨t, kv, h1, h2⟩ | ⟨t, kv, proto, h1, h2, h3⟩
      · simp [decodeLineV, h]
      · simp [decodeLineV, h1, h2]
      · simp [decodeLineV, h1, h2, h3]
    simp only [processLines, List.filterMap_append, List.filterMap_cons]
    have hskip : (if bad.isEmpty then none else decodeLineV protos bad) =
        (none : Option Rec) := by
      split
      · rfl
      · exact hdec
    rw [hskip]
  · intro e script
    simp [loadAllToCacheModel]
  · intro e bs tail
    constructor
    · simp only [loadAllToCacheModel, if_true]
      rw [readLoop_chunks_stop _ (Or.inl rfl) bs tail]
    · simp only [loadAllToCacheModel, if_true]
      rw [readLoop_chunks_stop _ (Or.inl rfl) bs tail,
        readLoop_chunks_stop _ (Or.inr rfl) bs tail]

/-- Witness for C9: a malformed line, a line of unregistered type `B`, and
a type-`A` line whose `id` fails strict parsing are each skipped between
two good lines; an `lseek` failure is the error return, and a failing read
after some chunks yields success on those chunks' records. -/
theorem claim9_tolerant_rebuild_witness :
    (processLines protosA (["A \x7b \"name\": \"x\", \"id\": 1 \x7d".toList] ++
        "garbage \x7d\x7d".toList :: ["A \x7b \"name\": \"y\", \"id\": 2 \x7d".toList]) =
      processLines protosA (["A \x7b \"name\": \"x\", \"id\": 1 \x7d".toList] ++
        ["A \x7b \"name\": \"y\", \"id\": 2 \x7d".toList]) ∧
    (∀ (e : Nat) (script : List RdRes),
      loadAllToCacheModel protosA false e script = .error e) ∧
    (∀ (e : Nat) (bs : List (List Char)) (tail : List RdRes),
      loadAllToCacheModel protosA true e
          (bs.map RdRes.chunk ++ RdRes.readErr :: tail) =
        .ok (loadRecords protosA bs.flatten) ∧
      loadAllToCacheModel protosA true e
          (bs.map RdRes.chunk ++ RdRes.readErr :: tail) =
        loadAllToCacheModel protosA true e
          (bs.map RdRes.chunk ++ RdRes.eofHit :: tail))) ∧
    (processLines protosA ([] ++ "B \x7b \"name\": \"x\", \"id\": 1 \x7d".toList :: []) =
      processLines protosA ([] ++ []) ∧
    (∀ (e : Nat) (script : List RdRes),
      loadAllToCacheModel protosA false e script = .error e)) ∧
    (processLines protosA ([] ++ "A \x7b \"name\": \"x\", \"id\": \"zz\" \x7d".toList :: []) =
      processLines protosA ([] ++ []) ∧
    (∀ (e : Nat) (script : List RdRes),
      loadAllToCacheModel protosA false e script = .error e)) :=
  ⟨claim9_tolerant_rebuild protosA _ _ _ (by left; rfl),
   (fun h => ⟨h.1, h.2.1⟩)
     (claim9_tolerant_rebuild protosA _ _ _ (by
       right; left
       exact ⟨_, _, rfl, rfl⟩)),
   (fun h => ⟨h.1, h.2.1⟩)
     (claim9_tolerant_rebuild protosA _ _ _ (by
       right; right
       exact ⟨_, _, _, rfl, rfl, rfl⟩))⟩

/-- C6 counterexample: a file consisting of a single, perfectly parseable
type-`A` line with no trailing newline.  Its content decodes to a record,
yet the cache rebuilt by `loadAllToCache` is empty — the unterminated line
stays in `leftover` and is never parsed — so `count` over the cache is `0`
and the record is absent. -/
theorem claim6_counterexample :
    decodeLineV protosA ("A \x7b \"name\": \"al\", \"id\": 1 \x7d".toList) =
      some ⟨['a', 'l'], 1⟩ ∧
    loadRecords protosA ("A \x7b \"name\": \"al\", \"id\": 1 \x7d".toList) = [] ∧
    (loadRecords protosA ("A \x7b \"name\": \"al\", \"id\": 1 \x7d".toList)).length = 0 ∧
    '\n' ∉ ("A \x7b \"name\": \"al\", \"id\": 1 \x7d".toList) := by
  refine ⟨rfl, rfl, rfl, by decide⟩

/-- C6 amended: a final line not terminated by a newline is never loaded by
the Line-Rewrite Store's cache rebuild, even when its content parses:
appending any newline-free fragment to a file leaves the rebuilt cache
unchanged. -/
theorem claim6_fragment_dropped {Rec : Type} (protos : VRegistry Rec)
    (b frag : List Char) (hf : '\n' ∉ frag) :
    loadRecords protos (b ++ frag) = loadRecords protos b := by
  rw [loadRecords, loadRecords, splitNl_app_frag b frag hf]

/-- Witness for C6 amended: appending the parseable but unterminated
type-`A` line to a newline-terminated file does not change the cache. -/
theorem claim6_fragment_dropped_witness :
    loadRecords protosA ("A \x7b \"name\": \"x\", \"id\": 2 \x7d\n".toList ++
      "A \x7b \"name\": \"al\", \"id\": 1 \x7d".toList) =
    loadRecords protosA ("A \x7b \"name\": \"x\", \"id\": 2 \x7d\n".toList) :=
  claim6_fragment_dropped protosA _ _ (by decide)

/-- A minimal fixed record type for witnesses: one byte that is both the
content and the identifier. -/
def codec1 : FCodec Char where
  rsize := 1
  ser c := [c]
  deser l := l.head?
  rid c := [c]
  rsize_pos := by decide
  ser_len := fun _ => rfl
  deser_ser := fun _ => rfl

/-- C4: deleting a present identifier from the Fixed-Slot Store shifts all
later slots down one slot width and truncates, so the file becomes exactly
the serialization of the remaining records in their original order, shrinks
by one slot width, every other record is still retrievable by its
identifier, and the count drops by one. -/
theorem claim4_delete_compaction {Rec : Type} (c : FCodec Rec)
    (recs : List Rec) (m i : Nat) (hi : i < recs.length)
    (hpw : DistinctIds c recs) :
    ∃ s', fdeleteById c (c.rid (recs.get ⟨i, hi⟩)) (repoOf c recs m) =
        .ok (true, s') ∧
      s'.file = ((recs.eraseIdx i).map c.ser).flatten ∧
      (repoOf c recs m).file.length = recs.length * c.rsize ∧
      s'.file.length = (recs.length - 1) * c.rsize ∧
      (fcount c s').map Prod.fst = .ok (recs.length - 1) ∧
      (∀ j (hj : j < recs.length), j ≠ i →
        (ffindById c (c.rid (recs.get ⟨j, hj⟩)) s').map Prod.fst =
          .ok (some (recs.get ⟨j, hj⟩))) := by
  have hpw' : DistinctIds c (recs.eraseIdx i) :=
    List.Pairwise.sublist (List.eraseIdx_sublist recs i) hpw
  have hlen' : (recs.eraseIdx i).length = recs.length - 1 := by
    rw [List.length_eraseIdx, if_pos hi]
  rw [fdeleteById, refresh_fresh c _ rfl rfl]
  simp only []
  rw [show (repoOf c recs m).idCache = idealCache c recs 0 from rfl,
    assocGet_idealCache c recs 0 i hi hpw]
  simp only [Nat.zero_add]
  rw [show (repoOf c recs m).file = (recs.map c.ser).flatten from rfl]
  rw [deleteBytes_flatten c recs i hi]
  rw [rebuildCache_flatten c (recs.eraseIdx i) hpw']
  simp only []
  refine ⟨{ repoOf c recs m with
      file := ((recs.eraseIdx i).map c.ser).flatten,
      mtime := (repoOf c recs m).mtime + 1,
      idCache := idealCache c (recs.eraseIdx i) 0 },
    rfl, rfl, flatten_ser_length c recs, ?_, ?_, ?_⟩
  · rw [flatten_ser_length, hlen']
  · have hg : GoodState c (recs.eraseIdx i) { repoOf c recs m with
        file := ((recs.eraseIdx i).map c.ser).flatten,
        mtime := (repoOf c recs m).mtime + 1,
        idCache := idealCache c (recs.eraseIdx i) 0 } := by
      refine ⟨rfl, Or.inr (Or.inl ?_)⟩
      simp [repoOf]
    have := fcount_good c (recs.eraseIdx i) _ hpw' hg
    rw [hlen'] at this
    exact this
  · intro j hj hne
    have hg : GoodState c (recs.eraseIdx i) { repoOf c recs m with
        file := ((recs.eraseIdx i).map c.ser).flatten,
        mtime := (repoOf c recs m).mtime + 1,
        idCache := idealCache c (recs.eraseIdx i) 0 } := by
      refine ⟨rfl, Or.inr (Or.inl ?_)⟩
      simp [repoOf]
    exact ffindById_good_mem c (recs.eraseIdx i) _ _
      (mem_eraseIdx_of_ne recs i j hi hj hne) hpw' hg

/-- Witness for C4: deleting the middle of three one-byte records. -/
theorem claim4_delete_compaction_witness :
    ∃ s', fdeleteById codec1 (codec1.rid (['a', 'b', 'x'].get ⟨1, by decide⟩))
        (repoOf codec1 ['a', 'b', 'x'] 0) = .ok (true, s') ∧
      s'.file = ((['a', 'b', 'x'].eraseIdx 1).map codec1.ser).flatten ∧
      (repoOf codec1 ['a', 'b', 'x'] 0).file.length =
        ['a', 'b', 'x'].length * codec1.rsize ∧
      s'.file.length = (['a', 'b', 'x'].length - 1) * codec1.rsize ∧
      (fcount codec1 s').map Prod.fst = .ok (['a', 'b', 'x'].length - 1) ∧
      (∀ j (hj : j < ['a', 'b', 'x'].length), j ≠ 1 →
        (ffindById codec1 (codec1.rid (['a', 'b', 'x'].get ⟨j, hj⟩)) s').map
            Prod.fst =
          .ok (some (['a', 'b', 'x'].get ⟨j, hj⟩))) :=
  claim4_delete_compaction codec1 ['a', 'b', 'x'] 0 1 (by decide)
    (by unfold DistinctIds; decide)

/-- A two-byte fixed record type (first byte is the id), used to exhibit
misaligned file sizes. -/
def codec2 : FCodec (Char × Char) where
  rsize := 2
  ser p := [p.1, p.2]
  deser l :=
    match l with
    | a :: b :: _ => some (a, b)
    | _ => none
  rid p := [p.1]
  rsize_pos := by decide
  ser_len := fun _ => rfl
  deser_ser := fun _ => rfl

/-- C3: the Fixed-Slot Store's alignment invariant.  Construction rejects a
nonempty file whose size is not a multiple of the slot width as corrupt;
construction success, `save`, `deleteById` and `deleteAll` all leave the
file size an exact multiple of the slot width (preserving the store
invariant); and after an external modification that changes the `(mtime,
size)` pair to a positive, misaligned size, the next `save`, `findById`,
`count`, `existsById` or `deleteById` fails with the corrupt-store error
instead of using the cache. -/
theorem claim3_alignment {Rec : Type} (c : FCodec Rec) :
    (∀ (file : List Char) (m : Nat), 0 < file.length →
      file.length % c.rsize ≠ 0 → mkRepo c file m = .error .corruptStore) ∧
    (∀ (file : List Char) (m : Nat) s, mkRepo c file m = .ok s →
      s.file.length % c.rsize = 0 ∧ InvF c s) ∧
    (∀ s r b s', InvF c s → fsave c r s = .ok (b, s') →
      s'.file.length % c.rsize = 0 ∧ InvF c s') ∧
    (∀ s id b s', InvF c s → fdeleteById c id s = .ok (b, s') →
      s'.file.length % c.rsize = 0 ∧ InvF c s') ∧
    (∀ s, (fdeleteAll c s).file.length % c.rsize = 0) ∧
    (∀ s (f : List Char) (m : Nat),
      (m ≠ s.lastMtime ∨ f.length ≠ s.lastSize) →
      0 < f.length → f.length % c.rsize ≠ 0 →
      (∀ r, fsave c r (externalSet s f m) = .error .corruptStore) ∧
      (∀ id, ffindById c id (externalSet s f m) = .error .corruptStore) ∧
      fcount c (externalSet s f m) = .error .corruptStore ∧
      (∀ id, fexistsById c id (externalSet s f m) = .error .corruptStore) ∧
      (∀ id, fdeleteById c id (externalSet s f m) = .error .corruptStore)) := by
  refine ⟨?_, ?_, ?_, ?_, ?_, ?_⟩
  · intro file m hpos hmod
    rw [mkRepo, if_pos ⟨hpos, hmod⟩]
  · intro file m s h
    rw [mkRepo] at h
    split at h
    · exact absurd h (by simp)
    · rename_i hno
      split at h
      · rename_i hpos
        cases hr : rebuildCache c file with
        | none => rw [hr] at h; exact absurd h (by simp)
        | some cache =>
          rw [hr] at h
          simp only [] at h
          injection h with h
          subst h
          have halign : file.length % c.rsize = 0 := by
            by_contra hmod
            exact hno ⟨hpos, hmod⟩
          exact ⟨halign, halign, rebuildCache_bounds c file cache hr⟩
      · rename_i hz
        injection h with h
        subst h
        have h0 : file.length = 0 := by omega
        simp [InvF, h0]
  · intro s r b s' hI h
    exact ⟨(fsave_inv c r s b s' hI h).1, fsave_inv c r s b s' hI h⟩
  · intro s id b s' hI h
    exact ⟨(fdeleteById_inv c id s b s' hI h).1, fdeleteById_inv c id s b s' hI h⟩
  · intro s
    simp [fdeleteAll]
  · intro s f m hch hpos hmod
    have hcor : checkAndRefreshCache c (externalSet s f m) = .error .corruptStore :=
      refresh_corrupt c _ hch hpos hmod
    refine ⟨?_, ?_, ?_, ?_, ?_⟩
    · intro r
      rw [fsave, hcor]
    · intro id
      rw [ffindById, hcor]
    · rw [fcount, hcor]
    · intro id
      rw [fexistsById, hcor]
    · intro id
      rw [fdeleteById, hcor]

/-- Witness for C3 with the two-byte codec: a one-byte file is rejected at
construction; saving over a valid one-record store keeps the invariant; an
external truncation to one byte makes `count` fail as corrupt. -/
theorem claim3_alignment_witness :
    mkRepo codec2 ['x'] 0 = .error .corruptStore ∧
    (fsave codec2 ('a', 'z') (repoOf codec2 [('a', 'b')] 0) =
      .ok (true, { repoOf codec2 [('a', 'b')] 0 with
        file := ['a', 'z'], mtime := 1 })) ∧
    ({ repoOf codec2 [('a', 'b')] 0 with
        file := ['a', 'z'], mtime := 1 } : FixedRepo).file.length %
      codec2.rsize = 0 ∧
    fcount codec2 (externalSet (repoOf codec2 [('a', 'b')] 0) ['x'] 5) =
      .error .corruptStore := by
  refine ⟨(claim3_alignment codec2).1 ['x'] 0 (by decide) (by decide),
    rfl, ?_, ?_⟩
  · exact ((claim3_alignment codec2).2.2.1 (repoOf codec2 [('a', 'b')] 0)
      ('a', 'z') true _ (by
        refine ⟨by decide, ?_⟩
        intro p hp
        simp only [repoOf, idealCache] at hp
        simp only [List.mem_singleton] at hp
        subst hp
        decide)
      rfl).1
  · exact ((claim3_alignment codec2).2.2.2.2.2 (repoOf codec2 [('a', 'b')] 0)
      ['x'] 5 (by right; decide) (by decide) (by decide)).2.2.1

/-- Witness for C2: the Fixed-Slot Store over two-byte records holding
`[('a','b')]` updated by `('a','z')` (same identifier `"a"`, new content),
and the Line-Rewrite Store over `A` records holding one record with id 2
updated by a record with the same id and a new name. -/
theorem claim2_upsert_witness :
    (∃ sF, fsave codec2 ('a', 'z') (repoOf codec2 [('a', 'b')] 5) =
         .ok (true, sF) ∧
       sF.file.length = (repoOf codec2 [('a', 'b')] 5).file.length ∧
       (fcount codec2 sF).map Prod.fst = .ok [('a', 'b')].length ∧
       (ffindById codec2 (codec2.rid ('a', 'z')) sF).map Prod.fst =
         .ok (some ('a', 'z'))) ∧
    ((vsave opsA ⟨['y'], 2⟩ (varRepoOf opsA [⟨['x'], 2⟩] 7)).1 = true ∧
     (vcount opsA (vsave opsA ⟨['y'], 2⟩ (varRepoOf opsA [⟨['x'], 2⟩] 7)).2).1 =
       [(⟨['x'], 2⟩ : RecA)].length ∧
     (vfindById opsA (opsA.rid ⟨['y'], 2⟩)
         (vsave opsA ⟨['y'], 2⟩ (varRepoOf opsA [⟨['x'], 2⟩] 7)).2).1 =
       some ⟨['y'], 2⟩) := by
  refine claim2_upsert codec2 [('a', 'b')] 5 0 Nat.one_pos ('a', 'z') ?_ ?_
    opsA [⟨['x'], 2⟩] 7 0 Nat.one_pos ⟨['y'], 2⟩ ?_ ?_ ?_
  · unfold DistinctIds
    decide
  · decide
  · intro x hx
    rw [List.mem_singleton] at hx
    subst hx
    exact ⟨by decide, by decide⟩
  · exact ⟨by decide, by decide⟩
  · decide

/-! ### Locking discipline (`FileLockGuard.hpp` and both repositories)

Each public operation's control flow is abstracted to the sequence of
lock events (`FileLockGuard` construction and destruction) and state
accesses (reads/writes of the backing file, and accesses to the in-memory
cache and stat members) it performs, in source order on the success path.
`FileLockGuard` is RAII, so its release is the last event of the scope it
guards, on every exit path. -/

/-- One step of an operation: taking or dropping the whole-file `fcntl`
lock (`exclusive = false` is the shared mode), an access to the in-memory
cache or stat members, or a read/write of the backing file itself. -/
inductive LockEv where
  | acquire (exclusive : Bool)
  | release
  | touchCache
  | readFile
  | writeFile
deriving DecidableEq, Repr

/-- The checker for the spec's discipline: state is the currently held
lock mode (`none` = unlocked).  Unlocked file or cache access is refused,
as is a file write under the shared mode, a nested acquire, a release
without a lock, and ending while still holding the lock. -/
def lockCheck : Option Bool → List LockEv → Bool
  | none, [] => true
  | none, .acquire ex :: t => lockCheck (some ex) t
  | none, .release :: _ => false
  | none, .touchCache :: _ => false
  | none, .readFile :: _ => false
  | none, .writeFile :: _ => false
  | some _, [] => false
  | some _, .acquire _ :: _ => false
  | some _, .release :: t => lockCheck none t
  | some ex, .touchCache :: t => lockCheck (some ex) t
  | some ex, .readFile :: t => lockCheck (some ex) t
  | some ex, .writeFile :: t => if ex then lockCheck (some ex) t else false

/-- A trace obeys the locking discipline: every state access happens under
the lock, file writes only under the exclusive mode, and the lock is
released by the end. -/
def wellLocked (t : List LockEv) : Bool := lockCheck none t

/-- `UniformFixedRepositoryImpl::checkAndRefreshCache`: `fstat`, stat-pair
comparison, then possibly a remap and cache rebuild (file reads and cache
writes). -/
def fxRefresh : List LockEv := [.readFile, .touchCache, .readFile, .touchCache]

/-- Fixed `save`: exclusive guard first, refresh, cache lookup, `pwrite`,
cache update, RAII release. -/
def fxSaveTrace : List LockEv :=
  .acquire true :: (fxRefresh ++ [.touchCache, .writeFile, .touchCache, .release])

/-- Fixed `saveAll`: the `save` loop, one guarded region per record. -/
def fxSaveAllTrace (n : Nat) : List LockEv :=
  (List.replicate n fxSaveTrace).flatten

/-- Fixed `findAll`: shared guard, refresh, cache scan, release. -/
def fxFindAllTrace : List LockEv :=
  .acquire false :: (fxRefresh ++ [.touchCache, .release])

/-- Fixed `findById`: shared guard, refresh, cache lookup and one slot
read, release. -/
def fxFindByIdTrace : List LockEv :=
  .acquire false :: (fxRefresh ++ [.touchCache, .readFile, .release])

/-- Fixed `deleteById`: exclusive guard, refresh, cache lookup, `memmove`
shift, `ftruncate`, cache rebuild, release. -/
def fxDeleteByIdTrace : List LockEv :=
  .acquire true ::
    (fxRefresh ++ [.touchCache, .readFile, .writeFile, .touchCache, .release])

/-- Fixed `deleteAll`: exclusive guard, `ftruncate`, cache clear,
release. -/
def fxDeleteAllTrace : List LockEv :=
  [.acquire true, .writeFile, .touchCache, .release]

/-- Fixed `count`: shared guard, refresh, cache size, release. -/
def fxCountTrace : List LockEv :=
  .acquire false :: (fxRefresh ++ [.touchCache, .release])

/-- Fixed `existsById`: shared guard, refresh, cache lookup, release. -/
def fxExistsTrace : List LockEv :=
  .acquire false :: (fxRefresh ++ [.touchCache, .release])

/-- `VariableFileRepositoryImpl::checkAndRefreshCache`: `stat`, stat-pair
comparison and possible invalidation, then possibly `loadAllToCache` (file
read, cache rebuild).  No guard of its own. -/
def vrRefresh : List LockEv := [.readFile, .touchCache, .readFile, .touchCache]

/-- Variable `findAll`: shared guard, refresh, cache clone loop,
release. -/
def vrFindAllTrace : List LockEv :=
  .acquire false :: (vrRefresh ++ [.touchCache, .release])

/-- Variable `findById`: shared guard, refresh, cache scan, release. -/
def vrFindByIdTrace : List LockEv :=
  .acquire false :: (vrRefresh ++ [.touchCache, .release])

/-- Variable `deleteAll`: exclusive guard, `ftruncate`, cache
invalidation, `sync` (`fsync` plus a stat refresh), release. -/
def vrDeleteAllTrace : List LockEv :=
  [.acquire true, .writeFile, .touchCache, .writeFile, .readFile, .touchCache,
   .release]

/-- Variable `appendRecord`: exclusive guard, `lseek` to end, `write`,
`sync`, release. -/
def vrAppendTrace : List LockEv :=
  [.acquire true, .readFile, .writeFile, .writeFile, .readFile, .touchCache,
   .release]

/-- Variable `rewriteAll`: exclusive guard, `ftruncate`, `lseek`, the
`write` loop, `sync`, release. -/
def vrRewriteTrace : List LockEv :=
  [.acquire true, .writeFile, .readFile, .writeFile, .writeFile, .readFile,
   .touchCache, .release]

/-- Variable `count`: refresh and cache size with no guard anywhere. -/
def vrCountTrace : List LockEv := vrRefresh ++ [.touchCache]

/-- Variable `existsById`: refresh and cache scan with no guard
anywhere. -/
def vrExistsTrace : List LockEv := vrRefresh ++ [.touchCache]

/-- Variable `save`, update path: unguarded refresh, unguarded
`existsById`, guarded `findAll`, unguarded replacement loop and cache
invalidation, guarded `rewriteAll`. -/
def vrSaveUpdateTrace : List LockEv :=
  vrRefresh ++ vrExistsTrace ++ vrFindAllTrace ++ [.touchCache, .touchCache] ++
    vrRewriteTrace

/-- Variable `save`, insert path: unguarded refresh, unguarded
`existsById`, unguarded cache invalidation, guarded `appendRecord`. -/
def vrSaveInsertTrace : List LockEv :=
  vrRefresh ++ vrExistsTrace ++ [.touchCache] ++ vrAppendTrace

/-- Variable `deleteById`: unguarded refresh, guarded `findAll`, unguarded
filter loop and cache invalidation, guarded `rewriteAll`. -/
def vrDeleteByIdTrace : List LockEv :=
  vrRefresh ++ vrFindAllTrace ++ [.touchCache, .touchCache] ++ vrRewriteTrace

/-- Well-locked traces compose sequentially. -/
theorem lockCheck_append_aux (t2 : List LockEv) (h2 : lockCheck none t2 = true) :
    ∀ (t1 : List LockEv) (s : Option Bool), lockCheck s t1 = true →
      lockCheck s (t1 ++ t2) = true
  | [], s, h1 => by
    cases s with
    | none => simpa using h2
    | some ex => exact absurd h1 (by simp [lockCheck])
  | e :: t1, s, h1 => by
    have ih := lockCheck_append_aux t2 h2 t1
    rw [List.cons_append]
    cases s with
    | none =>
      cases e with
      | acquire ex =>
        rw [lockCheck] at h1 ⊢
        exact ih _ h1
      | release => exact absurd h1 (by simp [lockCheck])
      | touchCache => exact absurd h1 (by simp [lockCheck])
      | readFile => exact absurd h1 (by simp [lockCheck])
      | writeFile => exact absurd h1 (by simp [lockCheck])
    | some ex =>
      cases e with
      | acquire e2 => exact absurd h1 (by simp [lockCheck])
      | release =>
        rw [lockCheck] at h1 ⊢
        exact ih _ h1
      | touchCache =>
        rw [lockCheck] at h1 ⊢
        exact ih _ h1
      | readFile =>
        rw [lockCheck] at h1 ⊢
        exact ih _ h1
      | writeFile =>
        rw [lockCheck] at h1 ⊢
        cases ex with
        | false => simp at h1
        | true =>
          rw [if_pos rfl] at h1 ⊢
          exact ih _ h1

theorem lockCheck_append (t1 t2 : List LockEv)
    (h1 : lockCheck none t1 = true) (h2 : lockCheck none t2 = true) :
    lockCheck none (t1 ++ t2) = true :=
  lockCheck_append_aux t2 h2 t1 none h1

/-- Every `saveAll` loop over a well-locked `save` is well-locked. -/
theorem fxSaveAll_wellLocked : ∀ n, wellLocked (fxSaveAllTrace n) = true
  | 0 => rfl
  | n + 1 => by
    show lockCheck none ((List.replicate (n + 1) fxSaveTrace).flatten) = true
    rw [List.replicate_succ, List.flatten_cons]
    exact lockCheck_append _ _ (by decide) (fxSaveAll_wellLocked n)

/-- C5 counterexample: four public operations of the Line-Rewrite Store
violate the claimed discipline.  `count` and `existsById` refresh the
cache and scan it without ever constructing a lock guard (their traces
hold no acquire event at all); `save` and `deleteById` refresh the cache
and file state before their first guard and invalidate the cache between
guarded regions. -/
theorem claim5_counterexample :
    wellLocked vrCountTrace = false ∧
    wellLocked vrExistsTrace = false ∧
    wellLocked vrSaveUpdateTrace = false ∧
    wellLocked vrSaveInsertTrace = false ∧
    wellLocked vrDeleteByIdTrace = false ∧
    (∀ ex, LockEv.acquire ex ∉ vrCountTrace) ∧
    (∀ ex, LockEv.acquire ex ∉ vrExistsTrace) := by
  refine ⟨by decide, by decide, by decide, by decide, by decide, ?_, ?_⟩
  · intro ex
    cases ex <;> decide
  · intro ex
    cases ex <;> decide

/-- C5 (amended): locking discipline holds per store, not globally.  Every
public operation of the Fixed-Slot Store takes the whole-file guard before
any file or cache access, shared for the pure reads (`findAll`,
`findById`, `count`, `existsById`) and exclusive for the writers (`save`,
`saveAll`, `deleteById`, `deleteAll`), holding it to the end of the
operation; in the Line-Rewrite Store only `findAll`, `findById` and
`deleteAll` do so, while `count` and `existsById` touch file and cache
state with no guard at all, and `save` and `deleteById` touch state before
and between their guarded regions. -/
theorem claim5_locking :
    (wellLocked fxSaveTrace = true ∧
     (∀ n, wellLocked (fxSaveAllTrace n) = true) ∧
     wellLocked fxFindAllTrace = true ∧
     wellLocked fxFindByIdTrace = true ∧
     wellLocked fxDeleteByIdTrace = true ∧
     wellLocked fxDeleteAllTrace = true ∧
     wellLocked fxCountTrace = true ∧
     wellLocked fxExistsTrace = true) ∧
    (wellLocked vrFindAllTrace = true ∧
     wellLocked vrFindByIdTrace = true ∧
     wellLocked vrDeleteAllTrace = true) ∧
    (wellLocked vrCountTrace = false ∧
     wellLocked vrExistsTrace = false ∧
     wellLocked vrSaveUpdateTrace = false ∧
     wellLocked vrSaveInsertTrace = false ∧
     wellLocked vrDeleteByIdTrace = false) :=
  ⟨⟨by decide, fxSaveAll_wellLocked, by decide, by decide, by decide, by decide,
    by decide, by decide⟩,
   ⟨by decide, by decide, by decide⟩,
   ⟨by decide, by decide, by decide, by decide, by decide⟩⟩

end FdFileV
